import Mathlib

/-!
Shallow embedding of the client-side upload queue coordinator
(`UploadQueueService` in `src/services/uploadQueue.ts`).

The service is a single-threaded (JavaScript run-to-completion) object
holding a list of upload jobs.  Its asynchronous behaviour is modelled as a
small-step transition system: every synchronous segment of JS code between
two suspension points (an `await` of the network call, the scheduler's
`setTimeout` sleep, or an externally triggered public method call) is one
atomic step.  Machinery that the claims need but that is invisible in the
JS heap — which preview handles were ever created and which were revoked,
and which snapshots were delivered to which listener — is carried as ghost
fields of the state (`createdJobs`, `revoked`, `delivered`); the non-ghost
fields mirror the private fields of the class one-to-one.
-/

namespace UploadQueue

/-- Job status, mirroring the union type
`'pending' | 'uploading' | 'processing' | 'completed' | 'failed'`. -/
inductive Status
| pending
| uploading
| processing
| completed
| failed
deriving DecidableEq

/-- The part of a browser `File` object the service reads: `name`, `type`
(the declared media type) and `size` (bytes). -/
structure File where
  name : String
  type : String
  size : Nat
deriving DecidableEq

/-- Mirror of the `UploadJob` interface.  `id` is modelled as a `Nat`
drawn from a counter (the source draws a fresh string from
`Date.now()`/`Math.random()`; the spec's invariant is only that ids are
unique and stable).  `preview` is the object-URL handle, modelled as a
`Nat` drawn from a counter standing for `URL.createObjectURL`'s fresh URL. -/
structure UploadJob where
  id : Nat
  file : File
  status : Status
  progress : Nat
  error : Option String
  itemId : Option String
  preview : Option Nat
deriving DecidableEq

/-- The `data` payload of a successful `wardrobeAPI.addItem` response:
`response.data?._id` and `response.data?.id`.  `uid` stands for the `_id`
field and `pid` for the `id` field. -/
structure RespData where
  uid : Option String
  pid : Option String
deriving DecidableEq

/-- A successful axios response: `response.data` may be missing. -/
structure ApiResponse where
  data : Option RespData
deriving DecidableEq

/-- A thrown upload error: `error.response?.data?.message` (the structured
backend message, flattened here to one optional field) and `error.message`
(the transport-level text). -/
structure ApiError where
  responseMessage : Option String
  message : Option String
deriving DecidableEq

/-- Outcome of the awaited `wardrobeAPI.addItem` network call. -/
inductive Outcome
| success (resp : ApiResponse)
| failure (err : ApiError)
deriving DecidableEq

/-- JavaScript `a || b` on optional strings: `undefined` and the empty
string are falsy, so they fall through to `b`. -/
def jsOrStr (a b : Option String) : Option String :=
  match a with
  | some s => if s = "" then b else some s
  | none => b

/-- The error message stored on failure, line 134 of the source:
`error.response?.data?.message || error.message || 'Upload failed'`
(`||` is left-associative in JS).  The outer `getD` is never exercised
because the last alternative is a non-empty literal. -/
def errMsg (e : ApiError) : String :=
  (jsOrStr (jsOrStr e.responseMessage e.message) (some "Upload failed")).getD "Upload failed"

/-- The `itemId` recorded on success, line 124 of the source:
`response.data?._id || response.data?.id`. -/
def respItemId (r : ApiResponse) : Option String :=
  jsOrStr (r.data.bind RespData.uid) (r.data.bind RespData.pid)

/-- JavaScript `String.prototype.startsWith(p)`: the first `p.length`
characters of the receiver equal `p`.  Modelled on the underlying character
list (Lean's own `String.startsWith` is compiled code that does not reduce
inside the kernel, so concrete witnesses could not be evaluated with it). -/
def strStartsWith (s p : String) : Bool :=
  s.data.take p.data.length == p.data

/-- The inline filter predicate of `addFiles` (lines 44-54): a file is kept
iff its media type starts with `image/` and its size is not above
`10 * 1024 * 1024` bytes. -/
def isValidFile (f : File) : Bool :=
  strStartsWith f.type "image/" && ! decide (f.size > 10 * 1024 * 1024)

/-- The concurrency ceiling: `private concurrency = 2`. -/
def concurrency : Nat := 2

/-- The coordinator state.  `queue`, `isProcessing`, `activeUploads` mirror
the class fields; `listeners` is the `Set<QueueListener>` keyed by the
order of subscription; `inflight` holds the job ids whose
`wardrobeAPI.addItem` call has been issued but not yet resolved (one entry
per in-flight call); `nextJobId`, `nextPreview` and `nextListener` are the
freshness counters; `createdJobs`, `revoked` and `delivered` are ghost
history fields (pairs `(job id, preview handle)` ever created, the
sequence of `URL.revokeObjectURL` calls, and the sequence of
`(listener, snapshot)` callback invocations). -/
structure QState where
  queue : List UploadJob
  isProcessing : Bool
  activeUploads : Nat
  inflight : List Nat
  listeners : List Nat
  nextJobId : Nat
  nextPreview : Nat
  nextListener : Nat
  createdJobs : List (Nat × Nat)
  revoked : List Nat
  delivered : List (Nat × List UploadJob)
deriving DecidableEq

/-- The pristine service: all fields of the class start empty
(`queue = []`, `isProcessing = false`, `activeUploads = 0`). -/
def init : QState where
  queue := []
  isProcessing := false
  activeUploads := 0
  inflight := []
  listeners := []
  nextJobId := 0
  nextPreview := 0
  nextListener := 0
  createdJobs := []
  revoked := []
  delivered := []

/-- Mirror of `notify` (lines 35-38): take one snapshot `[...this.queue]`
and invoke every registered listener with it.  An invocation is recorded
as a `(listener, snapshot)` entry of the ghost delivery log. -/
def notify (s : QState) : QState :=
  { s with delivered := s.delivered ++ s.listeners.map (fun l => (l, s.queue)) }

/-- Mirror of `subscribe` (lines 25-30): add the listener to the set and
immediately invoke it with a snapshot of the current queue.  Returns the
key under which the listener is registered (the source returns a closure
deleting exactly that listener; `unsubscribe` below is that closure). -/
def subscribe (s : QState) : QState × Nat :=
  ({ s with
      listeners := s.listeners ++ [s.nextListener]
      nextListener := s.nextListener + 1
      delivered := s.delivered ++ [(s.nextListener, s.queue)] },
   s.nextListener)

/-- The closure returned by `subscribe`: `this.listeners.delete(listener)`.
Removes only the given listener. -/
def unsubscribe (s : QState) (l : Nat) : QState :=
  { s with listeners := s.listeners.filter (fun x => ! (x == l)) }

/-- Replace the first element satisfying `p` by its image under `f`
(leaves the list unchanged when none does).  This is the effect of
`this.queue.findIndex(...)` followed by `this.queue[index] = ...`. -/
def updateFirst (p : α → Bool) (f : α → α) : List α → List α
| [] => []
| x :: xs => if p x then f x :: xs else x :: updateFirst p f xs

/-- Mirror of `updateJob` (lines 142-148): find the job by id; when found,
merge the updates into it in place and notify; when the id is absent, do
nothing (no notification). -/
def updateJob (s : QState) (id : Nat) (f : UploadJob → UploadJob) : QState :=
  if s.queue.any (fun j => j.id == id) then
    notify { s with queue := updateFirst (fun j => j.id == id) f s.queue }
  else s

/-- Mirror of `hasPendingJobs` (lines 95-97). -/
def hasPendingJobs (s : QState) : Bool :=
  s.queue.any (fun job => job.status == Status.pending)

/-- Mirror of `getNextPendingJob` (lines 99-101): `Array.prototype.find`
returns the first match in insertion order. -/
def getNextPendingJob (s : QState) : Option UploadJob :=
  s.queue.find? (fun job => job.status == Status.pending)

/-- The synchronous part of `processJob` (lines 106-118) up to the `await`
of `wardrobeAPI.addItem`: mark the job `uploading` with `progress` 10,
then bump `progress` to 30, then issue the network call (recorded by
pushing the job id onto `inflight`). -/
def processJobStart (s : QState) (id : Nat) : QState :=
  let s1 := updateJob s id (fun j => { j with status := Status.uploading, progress := 10 })
  let s2 := updateJob s1 id (fun j => { j with progress := 30 })
  { s2 with inflight := s2.inflight ++ [id] }

/-- The inner `while` of `processQueue` (lines 78-86): while a concurrency
slot is free and a pending job exists, take the first pending job,
occupy a slot (`this.activeUploads++`) and run `processJob` up to its
first suspension.  Each iteration raises `activeUploads`, so
`concurrency` iterations of fuel always suffice for the guard to fail. -/
def spawnLoop : Nat → QState → QState
| 0, s => s
| Nat.succ fuel, s =>
  if s.activeUploads < concurrency && hasPendingJobs s then
    match getNextPendingJob s with
    | some job =>
        spawnLoop fuel (processJobStart { s with activeUploads := s.activeUploads + 1 } job.id)
    | none => s
  else s

/-- One pass of the outer `while` of `processQueue` (lines 76-92): when
pending work or an occupied slot remains, spawn up to the ceiling and go
back to sleep (`isProcessing` stays true); otherwise fall out of the loop
and reset `isProcessing` (line 92). -/
def schedTick (s : QState) : QState :=
  if hasPendingJobs s || s.activeUploads > 0 then spawnLoop concurrency s
  else { s with isProcessing := false }

/-- Mirror of `processQueue` (lines 72-93) up to its first suspension: the
re-entrancy guard (lines 73-74) makes it a no-op while a loop is already
running; otherwise it sets `isProcessing` and runs the first pass. -/
def processQueue (s : QState) : QState :=
  if s.isProcessing then s else schedTick { s with isProcessing := true }

/-- Build the job records for the accepted files (lines 56-62): each gets a
fresh id, `status: 'pending'`, `progress: 0` and a fresh preview handle
from `URL.createObjectURL`. -/
def mkJobs : Nat → Nat → List File → List UploadJob
| _, _, [] => []
| jid, pv, f :: fs =>
  { id := jid, file := f, status := Status.pending, progress := 0,
    error := none, itemId := none, preview := some pv } :: mkJobs (jid + 1) (pv + 1) fs

/-- The synchronous body of `addFiles` (lines 43-65) before the trailing
`processQueue()` call: filter the input, append the new pending jobs and
notify.  The ghost `createdJobs` log records each created
`(id, preview)` pair. -/
def addFilesCore (s : QState) (files : List File) : QState :=
  let newJobs := mkJobs s.nextJobId s.nextPreview (files.filter isValidFile)
  notify { s with
    queue := s.queue ++ newJobs
    nextJobId := s.nextJobId + (files.filter isValidFile).length
    nextPreview := s.nextPreview + (files.filter isValidFile).length
    createdJobs := s.createdJobs ++
      newJobs.filterMap (fun j => j.preview.map (fun pv => (j.id, pv))) }

/-- Mirror of `addFiles` (lines 43-67): validate, enqueue, notify, then
trigger the scheduler. -/
def addFiles (s : QState) (files : List File) : QState :=
  processQueue (addFilesCore s files)

/-- Mirror of `retryJob` (lines 153-156): unconditionally merge
`{ status: 'pending', progress: 0, error: undefined }` into the job with
this id (a no-op when the id is absent), then trigger the scheduler.
Note the source has no check that the job is in `failed` status. -/
def retryJob (s : QState) (id : Nat) : QState :=
  processQueue (updateJob s id
    (fun j => { j with status := Status.pending, progress := 0, error := none }))

/-- Mirror of `removeJob` (lines 161-168): look the job up; when it exists
and has a (truthy) preview, revoke the object URL; drop every job with
this id from the queue; notify. -/
def removeJob (s : QState) (id : Nat) : QState :=
  let s1 :=
    match (s.queue.find? (fun j => j.id == id)).bind UploadJob.preview with
    | some pv => { s with revoked := s.revoked ++ [pv] }
    | none => s
  notify { s1 with queue := s1.queue.filter (fun job => ! (job.id == id)) }

/-- Mirror of `clearCompleted` (lines 173-179): revoke the preview of every
completed job, drop the completed jobs, notify. -/
def clearCompleted (s : QState) : QState :=
  notify { s with
    revoked := s.revoked ++
      (s.queue.filter (fun job => job.status == Status.completed)).filterMap UploadJob.preview
    queue := s.queue.filter (fun job => ! (job.status == Status.completed)) }

/-- Mirror of `getQueue` (lines 184-186): a copied snapshot of the queue,
equal in value to the internal list. -/
def getQueue (s : QState) : List UploadJob :=
  s.queue

/-- The resumption of `processJob` after `await wardrobeAPI.addItem`
resolves successfully (lines 121-128): mark the job `processing` with
`progress` 70 and the recorded item id, then immediately mark it
`completed` with `progress` 100. -/
def resolveSuccess (s : QState) (id : Nat) (r : ApiResponse) : QState :=
  let s1 := updateJob s id
    (fun j => { j with status := Status.processing, progress := 70, itemId := respItemId r })
  updateJob s1 id (fun j => { j with status := Status.completed, progress := 100 })

/-- The resumption of `processJob` after the call rejects (lines 130-136):
mark the job `failed` and store the derived error message; `progress` is
not among the updates, so it keeps its last value. -/
def resolveFailure (s : QState) (id : Nat) (e : ApiError) : QState :=
  updateJob s id (fun j => { j with status := Status.failed, error := some (errMsg e) })

/-- The whole resumption of one in-flight call: run the success or failure
branch of `processJob`, then the `.finally` of line 82-84 releases the
slot (`this.activeUploads--`); the call leaves `inflight`.  In the
browser the `finally` microtask runs back-to-back with the branch, so the
two form one atomic step. -/
def finishJob (s : QState) (id : Nat) (o : Outcome) : QState :=
  let s1 :=
    match o with
    | Outcome.success r => resolveSuccess s id r
    | Outcome.failure e => resolveFailure s id e
  { s1 with inflight := s1.inflight.erase id, activeUploads := s1.activeUploads - 1 }

/-- One atomic step of the coordinator: a public method call arriving from
the UI, a scheduler wake-up (enabled while the loop is live), or the
resolution of one in-flight network call with an arbitrary outcome. -/
inductive Step : QState → QState → Prop
| add (s : QState) (files : List File) : Step s (addFiles s files)
| retry (s : QState) (id : Nat) : Step s (retryJob s id)
| remove (s : QState) (id : Nat) : Step s (removeJob s id)
| clear (s : QState) : Step s (clearCompleted s)
| sub (s : QState) : Step s (subscribe s).1
| unsub (s : QState) (l : Nat) : Step s (unsubscribe s l)
| tick (s : QState) : s.isProcessing = true → Step s (schedTick s)
| resolve (s : QState) (id : Nat) (o : Outcome) :
    id ∈ s.inflight → Step s (finishJob s id o)

/-- States reachable from the pristine service by any interleaving of UI
commands, scheduler ticks and network resolutions. -/
inductive Reachable : QState → Prop
| init : Reachable init
| step {s s' : QState} : Reachable s → Step s s' → Reachable s'

/-- A job counts against the concurrency ceiling while `uploading` or
`processing`. -/
def inflightStatus (j : UploadJob) : Bool :=
  j.status == Status.uploading || j.status == Status.processing

/-- Number of jobs currently in `uploading` or `processing` status. -/
def countInFlight (s : QState) : Nat :=
  s.queue.countP inflightStatus

section ListLemmas

variable {α β γ : Type _} {p q : α → Bool} {f : α → α} {g : α → β} {x x' y : α}
variable {l l₁ l₂ : List α} {b : β}

lemma updateFirst_of_forall_not (f : α → α) (h : ∀ x ∈ l, p x = false) :
    updateFirst p f l = l := by
  induction l with
  | nil => rfl
  | cons a t ih =>
      simp only [updateFirst, h a (List.mem_cons_self a t)]
      simp only [Bool.false_eq_true, if_false, List.cons.injEq, true_and]
      exact ih fun x hx => h x (List.mem_cons_of_mem a hx)

lemma updateFirst_append_not (f : α → α) (h : ∀ y ∈ l₁, p y = false) (hx : p x = true) :
    updateFirst p f (l₁ ++ x :: l₂) = l₁ ++ f x :: l₂ := by
  induction l₁ with
  | nil => simp [updateFirst, hx]
  | cons a t ih =>
      simp only [List.cons_append, updateFirst, h a (List.mem_cons_self a t),
        Bool.false_eq_true, if_false, List.cons.injEq, true_and]
      exact ih fun y hy => h y (List.mem_cons_of_mem a hy)

lemma updateFirst_decomp (f : α → α) (h : ∃ x ∈ l, p x = true) :
    ∃ l₁ x l₂, l = l₁ ++ x :: l₂ ∧ p x = true ∧ (∀ y ∈ l₁, p y = false) ∧
      updateFirst p f l = l₁ ++ f x :: l₂ := by
  induction l with
  | nil => simp at h
  | cons a t ih =>
      by_cases ha : p a = true
      · exact ⟨[], a, t, by simp, ha, by simp, by simp [updateFirst, ha]⟩
      · obtain ⟨x, hxt, hx⟩ : ∃ x ∈ t, p x = true := by
          rcases h with ⟨x, hx, hpx⟩
          rcases List.mem_cons.mp hx with rfl | hxt
          · exact absurd hpx ha
          · exact ⟨x, hxt, hpx⟩
        obtain ⟨l₁, x, l₂, rfl, hpx, hl₁, hupd⟩ := ih ⟨x, hxt, hx⟩
        refine ⟨a :: l₁, x, l₂, rfl, hpx, ?_, ?_⟩
        · intro y hy
          rcases List.mem_cons.mp hy with rfl | hy
          · exact Bool.eq_false_iff.mpr ha
          · exact hl₁ y hy
        · simpa [updateFirst, ha] using hupd

lemma updateFirst_map (hg : ∀ x, g (f x) = g x) (l : List α) :
    (updateFirst p f l).map g = l.map g := by
  induction l with
  | nil => rfl
  | cons a t ih =>
      by_cases ha : p a = true
      · simp [updateFirst, ha, hg]
      · simp [updateFirst, ha, ih]

lemma updateFirst_filterMap (h : α → Option β) (hg : ∀ x, h (f x) = h x) (l : List α) :
    (updateFirst p f l).filterMap h = l.filterMap h := by
  induction l with
  | nil => rfl
  | cons a t ih =>
      by_cases ha : p a = true
      · simp [updateFirst, ha, List.filterMap_cons, hg]
      · cases hha : h a <;> simp [updateFirst, ha, List.filterMap_cons, hha, ih]

lemma mem_updateFirst (hx : x' ∈ updateFirst p f l) :
    x' ∈ l ∨ ∃ x ∈ l, p x = true ∧ x' = f x := by
  induction l with
  | nil => simp [updateFirst] at hx
  | cons a t ih =>
      by_cases ha : p a = true
      · simp only [updateFirst, ha, if_true] at hx
        rcases List.mem_cons.mp hx with rfl | hx
        · exact Or.inr ⟨a, List.mem_cons_self a t, ha, rfl⟩
        · exact Or.inl (List.mem_cons_of_mem a hx)
      · simp only [updateFirst, ha, if_false] at hx
        rcases List.mem_cons.mp hx with rfl | hx
        · exact Or.inl (List.mem_cons_self x' t)
        · rcases ih hx with h | ⟨z, hz, hpz, rfl⟩
          · exact Or.inl (List.mem_cons_of_mem a h)
          · exact Or.inr ⟨z, List.mem_cons_of_mem a hz, hpz, rfl⟩

lemma updateFirst_length (p : α → Bool) (f : α → α) (l : List α) :
    (updateFirst p f l).length = l.length := by
  induction l with
  | nil => rfl
  | cons a t ih =>
      by_cases ha : p a = true <;> simp [updateFirst, ha, ih]

lemma find?_decomp (h : l.find? p = some x) :
    ∃ l₁ l₂, l = l₁ ++ x :: l₂ ∧ p x = true ∧ ∀ y ∈ l₁, p y = false := by
  induction l with
  | nil => simp at h
  | cons a t ih =>
      by_cases ha : p a = true
      · have hax : a = x := by
          rw [List.find?_cons_of_pos t ha] at h
          exact Option.some.inj h
        subst hax
        exact ⟨[], t, rfl, ha, by simp⟩
      · have h' : t.find? p = some x := by
          rw [List.find?_cons_of_neg t (by simpa using ha)] at h
          exact h
        obtain ⟨l₁, l₂, rfl, hx, hl₁⟩ := ih h'
        refine ⟨a :: l₁, l₂, rfl, hx, ?_⟩
        intro y hy
        rcases List.mem_cons.mp hy with rfl | hy
        · exact Bool.eq_false_iff.mpr ha
        · exact hl₁ y hy

lemma filterMap_inj_unique {h : α → Option β} (hnd : (l.filterMap h).Nodup)
    (hx : x ∈ l) (hy : y ∈ l) (hbx : h x = some b) (hby : h y = some b) : x = y := by
  induction l with
  | nil => simp at hx
  | cons a t ih =>
      rw [List.filterMap_cons] at hnd
      rcases List.mem_cons.mp hx with rfl | hxt
      · rcases List.mem_cons.mp hy with rfl | hyt
        · rfl
        · exfalso
          rw [hbx] at hnd
          have : b ∈ t.filterMap h := List.mem_filterMap.mpr ⟨y, hyt, hby⟩
          exact (List.nodup_cons.mp hnd).1 this
      · rcases List.mem_cons.mp hy with rfl | hyt
        · exfalso
          rw [hby] at hnd
          have : b ∈ t.filterMap h := List.mem_filterMap.mpr ⟨x, hxt, hbx⟩
          exact (List.nodup_cons.mp hnd).1 this
        · have hnd' : (t.filterMap h).Nodup := by
            cases hha : h a <;> rw [hha] at hnd
            · exact hnd
            · exact (List.nodup_cons.mp hnd).2
          exact ih hnd' hxt hyt

lemma countP_le_of_key_covered (key : α → γ) (fl : List γ)
    (hnd : (l.map key).Nodup) (hcov : ∀ x ∈ l, q x = true → key x ∈ fl) :
    l.countP q ≤ fl.length := by
  have h1 : l.countP q = (l.filter q).length := by
    rw [List.countP_eq_length_filter]
  have hsub : List.Sublist ((l.filter q).map key) (l.map key) :=
    (List.filter_sublist l).map key
  have h2 : ((l.filter q).map key).Nodup := List.Nodup.sublist hsub hnd
  have h3 : (l.filter q).map key ⊆ fl := by
    intro z hz
    obtain ⟨x, hxmem, rfl⟩ := List.mem_map.mp hz
    exact hcov x (List.mem_of_mem_filter hxmem) (List.of_mem_filter hxmem)
  have h4 := (List.subperm_of_subset h2 h3).length_le
  rw [List.length_map] at h4
  omega

end ListLemmas

/-- The `(id, preview)` pairs recorded in the ghost creation log for one
`addFiles` batch. -/
def mkEntries (jid pv : Nat) (fs : List File) : List (Nat × Nat) :=
  (mkJobs jid pv fs).filterMap (fun j => j.preview.map (fun q => (j.id, q)))

lemma mkJobs_length (jid pv : Nat) (fs : List File) :
    (mkJobs jid pv fs).length = fs.length := by
  induction fs generalizing jid pv with
  | nil => rfl
  | cons f fs ih => simp [mkJobs, ih]

lemma mem_mkJobs {j : UploadJob} :
    ∀ {jid pv : Nat} {fs : List File}, j ∈ mkJobs jid pv fs →
    ∃ k, ∃ hk : k < fs.length,
      j = { id := jid + k, file := fs.get ⟨k, hk⟩, status := Status.pending, progress := 0,
            error := none, itemId := none, preview := some (pv + k) } := by
  intro jid pv fs h
  induction fs generalizing jid pv with
  | nil => simp [mkJobs] at h
  | cons f fs ih =>
      rcases List.mem_cons.mp h with rfl | h'
      · exact ⟨0, by simp, by simp⟩
      · obtain ⟨k, hk, hj⟩ := ih h'
        refine ⟨k + 1, by simpa using Nat.succ_lt_succ hk, ?_⟩
        rw [hj]
        simp [Nat.add_assoc, Nat.add_comm 1 k]

lemma mkJobs_map_file (jid pv : Nat) (fs : List File) :
    (mkJobs jid pv fs).map UploadJob.file = fs := by
  induction fs generalizing jid pv with
  | nil => rfl
  | cons f fs ih => simp [mkJobs, ih]

lemma mkJobs_id_ge {jid pv : Nat} {fs : List File} :
    ∀ j ∈ mkJobs jid pv fs, jid ≤ j.id := by
  intro j hj
  obtain ⟨k, hk, rfl⟩ := mem_mkJobs hj
  exact Nat.le_add_right _ _

lemma mkJobs_id_lt {jid pv : Nat} {fs : List File} :
    ∀ j ∈ mkJobs jid pv fs, j.id < jid + fs.length := by
  intro j hj
  obtain ⟨k, hk, rfl⟩ := mem_mkJobs hj
  simpa using Nat.add_lt_add_left hk jid

lemma mkJobs_id_nodup (jid pv : Nat) (fs : List File) :
    ((mkJobs jid pv fs).map UploadJob.id).Nodup := by
  induction fs generalizing jid pv with
  | nil => simp [mkJobs]
  | cons f fs ih =>
      simp only [mkJobs, List.map_cons, List.nodup_cons]
      refine ⟨?_, ih (jid + 1) (pv + 1)⟩
      intro hmem
      obtain ⟨j, hj, hid⟩ := List.mem_map.mp hmem
      have := mkJobs_id_ge j hj
      omega

lemma mkJobs_preview (jid pv : Nat) (fs : List File) :
    ∀ j ∈ mkJobs jid pv fs, ∃ q, j.preview = some q ∧ pv ≤ q ∧ q < pv + fs.length := by
  intro j hj
  obtain ⟨k, hk, rfl⟩ := mem_mkJobs hj
  exact ⟨pv + k, rfl, Nat.le_add_right _ _, by omega⟩

lemma mkJobs_filterMap_preview (jid pv : Nat) (fs : List File) :
    ∀ q ∈ (mkJobs jid pv fs).filterMap UploadJob.preview, pv ≤ q := by
  intro q hq
  obtain ⟨j, hj, hjq⟩ := List.mem_filterMap.mp hq
  obtain ⟨q', hq', hge, _⟩ := mkJobs_preview jid pv fs j hj
  rw [hq'] at hjq
  have hqq : q' = q := Option.some.inj hjq
  omega

lemma mkJobs_pv_nodup (jid pv : Nat) (fs : List File) :
    ((mkJobs jid pv fs).filterMap UploadJob.preview).Nodup := by
  induction fs generalizing jid pv with
  | nil => simp [mkJobs]
  | cons f fs ih =>
      simp only [mkJobs, List.filterMap_cons]
      simp only [List.nodup_cons]
      refine ⟨?_, ih (jid + 1) (pv + 1)⟩
      intro hmem
      have := mkJobs_filterMap_preview (jid + 1) (pv + 1) fs pv hmem
      omega

lemma mkEntries_cons (jid pv : Nat) (f : File) (fs : List File) :
    mkEntries jid pv (f :: fs) = (jid, pv) :: mkEntries (jid + 1) (pv + 1) fs := rfl

lemma mem_mkEntries {e : Nat × Nat} :
    ∀ {jid pv : Nat} {fs : List File}, e ∈ mkEntries jid pv fs →
      ∃ k, k < fs.length ∧ e = (jid + k, pv + k) := by
  intro jid pv fs h
  induction fs generalizing jid pv with
  | nil => simp [mkEntries, mkJobs] at h
  | cons f fs ih =>
      rw [mkEntries_cons] at h
      rcases List.mem_cons.mp h with rfl | h'
      · exact ⟨0, by simp, by simp⟩
      · obtain ⟨k, hk, he⟩ := ih h'
        refine ⟨k + 1, by simpa using Nat.succ_lt_succ hk, ?_⟩
        rw [he]
        simp [Nat.add_assoc, Nat.add_comm 1 k]

lemma mkEntries_fst_nodup (jid pv : Nat) (fs : List File) :
    ((mkEntries jid pv fs).map Prod.fst).Nodup := by
  induction fs generalizing jid pv with
  | nil => simp [mkEntries, mkJobs]
  | cons f fs ih =>
      rw [mkEntries_cons]
      simp only [List.map_cons, List.nodup_cons]
      refine ⟨?_, ih (jid + 1) (pv + 1)⟩
      intro hmem
      obtain ⟨e, he, hfst⟩ := List.mem_map.mp hmem
      obtain ⟨k, hk, rfl⟩ := mem_mkEntries he
      simp at hfst
      omega

lemma mkEntries_snd_nodup (jid pv : Nat) (fs : List File) :
    ((mkEntries jid pv fs).map Prod.snd).Nodup := by
  induction fs generalizing jid pv with
  | nil => simp [mkEntries, mkJobs]
  | cons f fs ih =>
      rw [mkEntries_cons]
      simp only [List.map_cons, List.nodup_cons]
      refine ⟨?_, ih (jid + 1) (pv + 1)⟩
      intro hmem
      obtain ⟨e, he, hsnd⟩ := List.mem_map.mp hmem
      obtain ⟨k, hk, rfl⟩ := mem_mkEntries he
      simp at hsnd
      omega

lemma mkJobs_entry_mem {jid pv : Nat} {fs : List File} {j : UploadJob}
    (hj : j ∈ mkJobs jid pv fs) {q : Nat} (hq : j.preview = some q) :
    (j.id, q) ∈ mkEntries jid pv fs :=
  List.mem_filterMap.mpr ⟨j, hj, by rw [hq]; rfl⟩

/-- The inductive part of the state invariant: everything that holds at
every suspension point regardless of whether the scheduler loop is live.
`concurrency` bounds the slot count; slot count equals the number of
in-flight calls; queue ids are unique and below the id counter; every
`uploading`/`processing` job has an in-flight call; every queued job's
preview handle appears in the creation log; handles and ids in the
creation log are unique and below their counters; a created handle is
revoked exactly once if its job has left the queue and zero times while
it is still queued; only created handles are ever revoked; and every
snapshot ever delivered to a listener showed at most `concurrency` jobs
in flight. -/
structure Core (s : QState) : Prop where
  activeEq : s.activeUploads = s.inflight.length
  activeLe : s.activeUploads ≤ concurrency
  idLt : ∀ j ∈ s.queue, j.id < s.nextJobId
  idNodup : (s.queue.map UploadJob.id).Nodup
  upInflight : ∀ j ∈ s.queue, inflightStatus j = true → j.id ∈ s.inflight
  jobPrev : ∀ j ∈ s.queue, ∃ pv, j.preview = some pv ∧ (j.id, pv) ∈ s.createdJobs
  pvNodup : (s.queue.filterMap UploadJob.preview).Nodup
  cFstNodup : (s.createdJobs.map Prod.fst).Nodup
  cSndNodup : (s.createdJobs.map Prod.snd).Nodup
  cIdLt : ∀ p ∈ s.createdJobs, p.1 < s.nextJobId
  cPvLt : ∀ p ∈ s.createdJobs, p.2 < s.nextPreview
  revCount : ∀ p ∈ s.createdJobs,
    s.revoked.count p.2 = if p.1 ∈ s.queue.map UploadJob.id then 0 else 1
  revCreated : ∀ r ∈ s.revoked, ∃ p ∈ s.createdJobs, p.2 = r
  deliveredLe : ∀ p ∈ s.delivered, p.2.countP inflightStatus ≤ concurrency

/-- The full invariant: `Core` plus the liveness bookkeeping of the
scheduler loop — when no loop is running there is neither pending work
nor an occupied slot (the loop only exits after seeing none). -/
def Inv (s : QState) : Prop :=
  Core s ∧ (s.isProcessing = false → hasPendingJobs s = false ∧ s.activeUploads = 0)

lemma core_count_le {s : QState} (hc : Core s) : countInFlight s ≤ concurrency := by
  have h := countP_le_of_key_covered (q := inflightStatus) UploadJob.id
    s.inflight hc.idNodup hc.upInflight
  calc s.queue.countP inflightStatus ≤ s.inflight.length := h
    _ = s.activeUploads := hc.activeEq.symm
    _ ≤ concurrency := hc.activeLe

lemma inv_init : Inv init := by
  refine ⟨⟨?_, ?_, ?_, ?_, ?_, ?_, ?_, ?_, ?_, ?_, ?_, ?_, ?_, ?_⟩, ?_⟩ <;>
    simp [init, concurrency, hasPendingJobs]

lemma nodup_middle {γ : Type _} {a : γ} {m₁ m₂ : List γ} (h : (m₁ ++ a :: m₂).Nodup) :
    a ∉ m₁ ∧ a ∉ m₂ := by
  rw [List.nodup_append] at h
  obtain ⟨h₁, h₂, hdisj⟩ := h
  refine ⟨fun ha => hdisj ha (List.mem_cons_self a m₂), (List.nodup_cons.mp h₂).1⟩

lemma ids_ne_of_nodup {l₁ l₂ : List UploadJob} {x : UploadJob}
    (hnd : ((l₁ ++ x :: l₂).map UploadJob.id).Nodup) :
    (∀ y ∈ l₁, y.id ≠ x.id) ∧ (∀ y ∈ l₂, y.id ≠ x.id) := by
  rw [List.map_append, List.map_cons] at hnd
  have h := nodup_middle hnd
  constructor <;> intro y hy hne
  · exact h.1 (hne ▸ List.mem_map_of_mem UploadJob.id hy)
  · exact h.2 (hne ▸ List.mem_map_of_mem UploadJob.id hy)

lemma queue_decomp_of_mem {s : QState} {x : UploadJob}
    (hnd : (s.queue.map UploadJob.id).Nodup) (hx : x ∈ s.queue) :
    ∃ l₁ l₂, s.queue = l₁ ++ x :: l₂ ∧ (∀ y ∈ l₁, y.id ≠ x.id) ∧ ∀ y ∈ l₂, y.id ≠ x.id := by
  obtain ⟨l₁, l₂, hq⟩ := List.append_of_mem hx
  have := ids_ne_of_nodup (hq ▸ hnd)
  exact ⟨l₁, l₂, hq, this.1, this.2⟩

lemma mem_of_id_mem {L : List UploadJob} {id : Nat} (h : id ∈ L.map UploadJob.id) :
    ∃ x ∈ L, x.id = id := by
  obtain ⟨x, hx, hid⟩ := List.mem_map.mp h
  exact ⟨x, hx, hid⟩

lemma updateJob_of_not_mem {s : QState} {id : Nat} {f : UploadJob → UploadJob}
    (h : ∀ j ∈ s.queue, j.id ≠ id) : updateJob s id f = s := by
  unfold updateJob
  rw [if_neg]
  intro hany
  obtain ⟨j, hj, hbeq⟩ := List.any_eq_true.mp hany
  exact h j hj (by simpa using hbeq)

lemma updateJob_of_decomp {s : QState} {id : Nat} {f : UploadJob → UploadJob}
    {l₁ l₂ : List UploadJob} {x : UploadJob}
    (hq : s.queue = l₁ ++ x :: l₂) (hx : x.id = id) (hl₁ : ∀ y ∈ l₁, y.id ≠ id) :
    updateJob s id f = notify { s with queue := l₁ ++ f x :: l₂ } := by
  unfold updateJob
  rw [if_pos, hq, updateFirst_append_not]
  · intro y hy
    simpa using hl₁ y hy
  · simpa using hx
  · rw [hq]
    exact List.any_eq_true.mpr ⟨x, by simp, by simpa using hx⟩

lemma notify_fields (s : QState) :
    (notify s).queue = s.queue ∧ (notify s).isProcessing = s.isProcessing ∧
    (notify s).activeUploads = s.activeUploads ∧ (notify s).inflight = s.inflight ∧
    (notify s).listeners = s.listeners ∧ (notify s).nextJobId = s.nextJobId ∧
    (notify s).nextPreview = s.nextPreview ∧ (notify s).nextListener = s.nextListener ∧
    (notify s).createdJobs = s.createdJobs ∧ (notify s).revoked = s.revoked := by
  refine ⟨rfl, rfl, rfl, rfl, rfl, rfl, rfl, rfl, rfl, rfl⟩

lemma updateJob_fields (s : QState) (id : Nat) (f : UploadJob → UploadJob) :
    (updateJob s id f).isProcessing = s.isProcessing ∧
    (updateJob s id f).activeUploads = s.activeUploads ∧
    (updateJob s id f).inflight = s.inflight ∧
    (updateJob s id f).listeners = s.listeners ∧
    (updateJob s id f).nextJobId = s.nextJobId ∧
    (updateJob s id f).nextPreview = s.nextPreview ∧
    (updateJob s id f).nextListener = s.nextListener ∧
    (updateJob s id f).createdJobs = s.createdJobs ∧
    (updateJob s id f).revoked = s.revoked := by
  unfold updateJob
  split <;> exact ⟨rfl, rfl, rfl, rfl, rfl, rfl, rfl, rfl, rfl⟩

lemma updateJob_delivered_mem {s : QState} {id : Nat} {f : UploadJob → UploadJob}
    {p : Nat × List UploadJob} (hp : p ∈ (updateJob s id f).delivered) :
    p ∈ s.delivered ∨ p.2 = (updateJob s id f).queue := by
  unfold updateJob at hp ⊢
  split at hp
  · simp only [notify] at hp
    rcases List.mem_append.mp hp with h | h
    · exact Or.inl h
    · obtain ⟨l, _, rfl⟩ := List.mem_map.mp h
      right
      split
      · rfl
      · rfl
  · exact Or.inl hp

lemma updateJob_map_of_pres {s : QState} {id : Nat} {f : UploadJob → UploadJob}
    {β : Type _} {g : UploadJob → β} (hg : ∀ j, g (f j) = g j) :
    (updateJob s id f).queue.map g = s.queue.map g := by
  unfold updateJob
  split
  · exact updateFirst_map hg s.queue
  · rfl

lemma updateJob_filterMap_of_pres {s : QState} {id : Nat} {f : UploadJob → UploadJob}
    {β : Type _} {g : UploadJob → Option β} (hg : ∀ j, g (f j) = g j) :
    (updateJob s id f).queue.filterMap g = s.queue.filterMap g := by
  unfold updateJob
  split
  · exact updateFirst_filterMap g hg s.queue
  · rfl

lemma updateJob_mem {s : QState} {id : Nat} {f : UploadJob → UploadJob}
    {j : UploadJob} (hj : j ∈ (updateJob s id f).queue) :
    j ∈ s.queue ∨ ∃ x ∈ s.queue, x.id = id ∧ j = f x := by
  unfold updateJob at hj
  split at hj
  · rcases mem_updateFirst hj with h | ⟨x, hx, hpx, rfl⟩
    · exact Or.inl h
    · exact Or.inr ⟨x, hx, by simpa using hpx, rfl⟩
  · exact Or.inl hj

lemma processJobStart_decomp {s : QState} {job : UploadJob} {l₁ l₂ : List UploadJob}
    (hq : s.queue = l₁ ++ job :: l₂) (hl₁ : ∀ y ∈ l₁, y.id ≠ job.id) (a : Nat) :
    processJobStart { s with activeUploads := a } job.id =
      { s with
        queue := l₁ ++ { job with status := Status.uploading, progress := 30 } :: l₂
        activeUploads := a
        inflight := s.inflight ++ [job.id]
        delivered := s.delivered
          ++ s.listeners.map
            (fun l => (l, l₁ ++ { job with status := Status.uploading, progress := 10 } :: l₂))
          ++ s.listeners.map
            (fun l => (l, l₁ ++ { job with status := Status.uploading, progress := 30 } :: l₂)) } := by
  have hbl : ∀ y ∈ l₁, (y.id == job.id) = false := fun y hy => by
    simpa using hl₁ y hy
  have hany : s.queue.any (fun j => j.id == job.id) = true := by
    rw [hq]
    exact List.any_eq_true.mpr ⟨job, by simp, by simp⟩
  have hupd1 : updateFirst (fun j => j.id == job.id)
      (fun j => { j with status := Status.uploading, progress := 10 }) s.queue
      = l₁ ++ { job with status := Status.uploading, progress := 10 } :: l₂ := by
    rw [hq]
    exact updateFirst_append_not _ hbl (by simp)
  have hany2 : (l₁ ++ { job with status := Status.uploading, progress := 10 } :: l₂).any
      (fun j => j.id == job.id) = true :=
    List.any_eq_true.mpr ⟨{ job with status := Status.uploading, progress := 10 }, by simp, by simp⟩
  have hupd2 : updateFirst (fun j => j.id == job.id) (fun j => { j with progress := 30 })
      (l₁ ++ { job with status := Status.uploading, progress := 10 } :: l₂)
      = l₁ ++ { job with status := Status.uploading, progress := 30 } :: l₂ :=
    updateFirst_append_not _ hbl (by simp)
  simp [processJobStart, updateJob, notify, hany, hany2, hupd1, hupd2]

lemma core_spawnOne {s : QState} {job : UploadJob} (hc : Core s)
    (hlt : s.activeUploads < concurrency) (hnext : getNextPendingJob s = some job) :
    Core (processJobStart { s with activeUploads := s.activeUploads + 1 } job.id) := by
  obtain ⟨l₁, l₂, hq, hpbool, hl₁p⟩ := find?_decomp (by simpa [getNextPendingJob] using hnext)
  have hpend : job.status = Status.pending := by simpa using hpbool
  have hids := ids_ne_of_nodup (hq ▸ hc.idNodup)
  rw [processJobStart_decomp hq hids.1 (s.activeUploads + 1)]
  -- facts about the old queue, transported through the decomposition
  have hmem : ∀ j, j ∈ l₁ ∨ j = job ∨ j ∈ l₂ → j ∈ s.queue := by
    intro j hj
    rw [hq]
    rcases hj with h | rfl | h
    · exact List.mem_append.mpr (Or.inl h)
    · exact List.mem_append.mpr (Or.inr (List.mem_cons_self _ _))
    · exact List.mem_append.mpr (Or.inr (List.mem_cons_of_mem _ h))
  have hcov : ∀ x : UploadJob,
      ∀ j ∈ l₁ ++ x :: l₂, x.id = job.id → inflightStatus j = true →
        j.id ∈ s.inflight ++ [job.id] := by
    intro x j hj hxid hst
    rcases List.mem_append.mp hj with h | h
    · exact List.mem_append.mpr (Or.inl (hc.upInflight j (hmem j (Or.inl h)) hst))
    · rcases List.mem_cons.mp h with rfl | h
      · exact List.mem_append.mpr (Or.inr (by simp [hxid]))
      · exact List.mem_append.mpr (Or.inl (hc.upInflight j (hmem j (Or.inr (Or.inr h))) hst))
  have hidsame : ∀ (x : UploadJob), x.id = job.id →
      ((l₁ ++ x :: l₂).map UploadJob.id) = s.queue.map UploadJob.id := by
    intro x hx
    rw [hq]
    simp [hx]
  have hndx : ∀ (x : UploadJob), x.id = job.id → ((l₁ ++ x :: l₂).map UploadJob.id).Nodup := by
    intro x hx
    rw [hidsame x hx]
    exact hc.idNodup
  have hcount : ∀ (x : UploadJob), x.id = job.id →
      (l₁ ++ x :: l₂).countP inflightStatus ≤ concurrency := by
    intro x hx
    have h := countP_le_of_key_covered (q := inflightStatus) UploadJob.id
      (s.inflight ++ [job.id]) (hndx x hx) (fun j hj => hcov x j hj hx)
    have hlen : (s.inflight ++ [job.id]).length = s.activeUploads + 1 := by
      simp [hc.activeEq]
    omega
  refine ⟨?_, ?_, ?_, ?_, ?_, ?_, ?_, ?_, ?_, ?_, ?_, ?_, ?_, ?_⟩
  · simp [hc.activeEq]
  · simpa using hlt
  · intro j hj
    rcases List.mem_append.mp hj with h | h
    · exact hc.idLt j (hmem j (Or.inl h))
    · rcases List.mem_cons.mp h with rfl | h
      · exact hc.idLt job (hmem job (Or.inr (Or.inl rfl)))
      · exact hc.idLt j (hmem j (Or.inr (Or.inr h)))
  · exact hndx _ rfl
  · intro j hj hst
    exact hcov _ j hj rfl hst
  · intro j hj
    rcases List.mem_append.mp hj with h | h
    · exact hc.jobPrev j (hmem j (Or.inl h))
    · rcases List.mem_cons.mp h with rfl | h
      · obtain ⟨pv, hpv, hent⟩ := hc.jobPrev job (hmem job (Or.inr (Or.inl rfl)))
        exact ⟨pv, hpv, hent⟩
      · exact hc.jobPrev j (hmem j (Or.inr (Or.inr h)))
  · have : (l₁ ++ { job with status := Status.uploading, progress := 30 } :: l₂).filterMap
        UploadJob.preview = s.queue.filterMap UploadJob.preview := by
      rw [hq]
      simp [List.filterMap_append, List.filterMap_cons]
    rw [this]
    exact hc.pvNodup
  · exact hc.cFstNodup
  · exact hc.cSndNodup
  · exact hc.cIdLt
  · exact hc.cPvLt
  · intro p hp
    show s.revoked.count p.2 = if p.1 ∈ (l₁ ++
      { job with status := Status.uploading, progress := 30 } :: l₂).map UploadJob.id
      then 0 else 1
    rw [hidsame { job with status := Status.uploading, progress := 30 } rfl]
    exact hc.revCount p hp
  · exact hc.revCreated
  · intro p hp
    rcases List.mem_append.mp hp with hp | hp
    · rcases List.mem_append.mp hp with hp | hp
      · exact hc.deliveredLe p hp
      · obtain ⟨l, _, rfl⟩ := List.mem_map.mp hp
        exact hcount _ rfl
    · obtain ⟨l, _, rfl⟩ := List.mem_map.mp hp
      exact hcount _ rfl

lemma processJobStart_isProcessing (s : QState) (id : Nat) :
    (processJobStart s id).isProcessing = s.isProcessing := by
  show (updateJob (updateJob s id fun j => { j with status := Status.uploading, progress := 10 })
      id fun j => { j with progress := 30 }).isProcessing = s.isProcessing
  rw [(updateJob_fields _ _ _).1, (updateJob_fields _ _ _).1]

lemma spawnLoop_isProcessing (n : Nat) (s : QState) :
    (spawnLoop n s).isProcessing = s.isProcessing := by
  induction n generalizing s with
  | zero => rfl
  | succ n ih =>
      rw [spawnLoop]
      split
      · split
        · rw [ih, processJobStart_isProcessing]
        · rfl
      · rfl

lemma core_setProcessing {s : QState} (b : Bool) (hc : Core s) :
    Core { s with isProcessing := b } :=
  ⟨hc.activeEq, hc.activeLe, hc.idLt, hc.idNodup, hc.upInflight, hc.jobPrev, hc.pvNodup,
   hc.cFstNodup, hc.cSndNodup, hc.cIdLt, hc.cPvLt, hc.revCount, hc.revCreated, hc.deliveredLe⟩

lemma core_spawnLoop {s : QState} (n : Nat) (hc : Core s) : Core (spawnLoop n s) := by
  induction n generalizing s with
  | zero => exact hc
  | succ n ih =>
      rw [spawnLoop]
      split
      case isTrue h =>
        obtain ⟨hlt, hpend⟩ := Bool.and_eq_true_iff.mp h
        split
        case h_1 job hjob =>
          exact ih (core_spawnOne hc (by simpa using hlt) hjob)
        case h_2 => exact hc
      case isFalse => exact hc

lemma core_schedTick {s : QState} (hc : Core s) : Core (schedTick s) := by
  unfold schedTick
  split
  · exact core_spawnLoop concurrency hc
  · exact core_setProcessing false hc

lemma inv_schedTick {s : QState} (hc : Core s) (hp : s.isProcessing = true) :
    Inv (schedTick s) := by
  unfold schedTick
  split
  case isTrue h =>
    refine ⟨core_spawnLoop concurrency hc, ?_⟩
    intro hfalse
    rw [spawnLoop_isProcessing, hp] at hfalse
    exact absurd hfalse (by simp)
  case isFalse h =>
    refine ⟨core_setProcessing false hc, ?_⟩
    intro _
    rw [Bool.or_eq_true_iff, not_or] at h
    obtain ⟨h1, h2⟩ := h
    simp only [decide_eq_true_eq] at h2
    constructor
    · show hasPendingJobs s = false
      exact Bool.eq_false_iff.mpr h1
    · show s.activeUploads = 0
      omega

lemma inv_processQueue {s : QState} (hc : Core s) : Inv (processQueue s) := by
  unfold processQueue
  split
  case isTrue h =>
    exact ⟨hc, fun hfalse => absurd (h ▸ hfalse) (by simp)⟩
  case isFalse h =>
    exact inv_schedTick (core_setProcessing true hc) rfl

lemma mkJobs_mem_id {jid pv k : Nat} {fs : List File} (hk : k < fs.length) :
    jid + k ∈ (mkJobs jid pv fs).map UploadJob.id := by
  induction fs generalizing jid pv k with
  | nil => simp at hk
  | cons f fs ih =>
      cases k with
      | zero => simp [mkJobs]
      | succ k =>
          have := @ih (jid + 1) (pv + 1) k (by simpa using Nat.lt_of_succ_lt_succ hk)
          simp only [mkJobs, List.map_cons, List.mem_cons]
          right
          rw [show jid + (k + 1) = jid + 1 + k by omega]
          exact this

lemma core_addFilesCore {s : QState} (hc : Core s) (files : List File) :
    Core (addFilesCore s files) := by
  unfold addFilesCore
  dsimp only
  set valid := files.filter isValidFile with hvalid
  set newJobs := mkJobs s.nextJobId s.nextPreview valid with hnew
  have hentries : newJobs.filterMap (fun j => j.preview.map (fun pv => (j.id, pv)))
      = mkEntries s.nextJobId s.nextPreview valid := rfl
  rw [hentries]
  have hnewPend : ∀ j ∈ newJobs, j.status = Status.pending := by
    intro j hj
    obtain ⟨k, hk, rfl⟩ := mem_mkJobs hj
    rfl
  have hnewNotInflight : ∀ j ∈ newJobs, inflightStatus j = false := by
    intro j hj
    simp [inflightStatus, hnewPend j hj]
  have hcount0 : newJobs.countP inflightStatus = 0 := by
    rw [List.countP_eq_zero]
    intro j hj
    simp [hnewNotInflight j hj]
  have hidsEq : (s.queue ++ newJobs).map UploadJob.id
      = s.queue.map UploadJob.id ++ newJobs.map UploadJob.id := List.map_append _ _ _
  refine ⟨?_, ?_, ?_, ?_, ?_, ?_, ?_, ?_, ?_, ?_, ?_, ?_, ?_, ?_⟩
  · exact hc.activeEq
  · exact hc.activeLe
  · intro j hj
    show j.id < s.nextJobId + valid.length
    rcases List.mem_append.mp hj with h | h
    · have := hc.idLt j h
      omega
    · exact mkJobs_id_lt j h
  · show ((s.queue ++ newJobs).map UploadJob.id).Nodup
    rw [hidsEq, List.nodup_append]
    refine ⟨hc.idNodup, mkJobs_id_nodup _ _ _, ?_⟩
    intro a ha hb
    obtain ⟨j, hj, rfl⟩ := List.mem_map.mp ha
    obtain ⟨j', hj', hjj⟩ := List.mem_map.mp hb
    have h1 := hc.idLt j hj
    have h2 := mkJobs_id_ge j' hj'
    omega
  · intro j hj hst
    rcases List.mem_append.mp hj with h | h
    · exact hc.upInflight j h hst
    · rw [hnewNotInflight j h] at hst
      exact absurd hst (by simp)
  · intro j hj
    rcases List.mem_append.mp hj with h | h
    · obtain ⟨pv, hpv, hent⟩ := hc.jobPrev j h
      exact ⟨pv, hpv, List.mem_append.mpr (Or.inl hent)⟩
    · obtain ⟨k, hk, rfl⟩ := mem_mkJobs h
      refine ⟨s.nextPreview + k, rfl, List.mem_append.mpr (Or.inr ?_)⟩
      exact mkJobs_entry_mem h rfl
  · show ((s.queue ++ newJobs).filterMap UploadJob.preview).Nodup
    rw [List.filterMap_append, List.nodup_append]
    refine ⟨hc.pvNodup, mkJobs_pv_nodup _ _ _, ?_⟩
    intro a ha hb
    obtain ⟨j, hj, hja⟩ := List.mem_filterMap.mp ha
    obtain ⟨pv, hpv, hent⟩ := hc.jobPrev j hj
    rw [hpv] at hja
    have hav : a = pv := (Option.some.inj hja).symm
    have h1 := hc.cPvLt _ hent
    have h2 := mkJobs_filterMap_preview _ _ _ a hb
    omega
  · show ((s.createdJobs ++ mkEntries s.nextJobId s.nextPreview valid).map Prod.fst).Nodup
    rw [List.map_append, List.nodup_append]
    refine ⟨hc.cFstNodup, mkEntries_fst_nodup _ _ _, ?_⟩
    intro a ha hb
    obtain ⟨e, he, rfl⟩ := List.mem_map.mp ha
    obtain ⟨e', he', hee⟩ := List.mem_map.mp hb
    obtain ⟨k, hk, rfl⟩ := mem_mkEntries he'
    have := hc.cIdLt e he
    simp at hee
    omega
  · show ((s.createdJobs ++ mkEntries s.nextJobId s.nextPreview valid).map Prod.snd).Nodup
    rw [List.map_append, List.nodup_append]
    refine ⟨hc.cSndNodup, mkEntries_snd_nodup _ _ _, ?_⟩
    intro a ha hb
    obtain ⟨e, he, rfl⟩ := List.mem_map.mp ha
    obtain ⟨e', he', hee⟩ := List.mem_map.mp hb
    obtain ⟨k, hk, rfl⟩ := mem_mkEntries he'
    have := hc.cPvLt e he
    simp at hee
    omega
  · intro p hp
    show p.1 < s.nextJobId + valid.length
    rcases List.mem_append.mp hp with h | h
    · have := hc.cIdLt p h
      omega
    · obtain ⟨k, hk, rfl⟩ := mem_mkEntries h
      omega
  · intro p hp
    show p.2 < s.nextPreview + valid.length
    rcases List.mem_append.mp hp with h | h
    · have := hc.cPvLt p h
      omega
    · obtain ⟨k, hk, rfl⟩ := mem_mkEntries h
      omega
  · intro p hp
    show s.revoked.count p.2
      = if p.1 ∈ (s.queue ++ newJobs).map UploadJob.id then 0 else 1
    rcases List.mem_append.mp hp with h | h
    · rw [hidsEq]
      by_cases hmem : p.1 ∈ s.queue.map UploadJob.id
      · rw [if_pos (List.mem_append.mpr (Or.inl hmem))]
        have := hc.revCount p h
        rwa [if_pos hmem] at this
      · rw [if_neg]
        · have := hc.revCount p h
          rwa [if_neg hmem] at this
        · intro hmem'
          rcases List.mem_append.mp hmem' with h' | h'
          · exact hmem h'
          · obtain ⟨j, hj, hjid⟩ := List.mem_map.mp h'
            have h1 := mkJobs_id_ge j hj
            have h2 := hc.cIdLt p h
            omega
    · obtain ⟨k, hk, rfl⟩ := mem_mkEntries h
      rw [hidsEq, if_pos]
      · rw [List.count_eq_zero]
        intro hmem
        obtain ⟨q, hq, hq2⟩ := hc.revCreated _ hmem
        have := hc.cPvLt q hq
        simp at hq2
        omega
      · refine List.mem_append.mpr (Or.inr ?_)
        rw [hvalid] at hk
        exact mkJobs_mem_id hk
  · intro r hr
    obtain ⟨q, hq, hq2⟩ := hc.revCreated r hr
    exact ⟨q, List.mem_append.mpr (Or.inl hq), hq2⟩
  · intro p hp
    rcases List.mem_append.mp hp with h | h
    · exact hc.deliveredLe p h
    · obtain ⟨l, _, rfl⟩ := List.mem_map.mp h
      show (s.queue ++ newJobs).countP inflightStatus ≤ concurrency
      rw [List.countP_append, hcount0]
      have := core_count_le hc
      unfold countInFlight at this
      omega

lemma inv_addFiles {s : QState} (hI : Inv s) (files : List File) : Inv (addFiles s files) :=
  inv_processQueue (core_addFilesCore hI.1 files)

lemma resolveSuccess_decomp {s : QState} {id : Nat} {r : ApiResponse}
    {l₁ l₂ : List UploadJob} {x : UploadJob}
    (hq : s.queue = l₁ ++ x :: l₂) (hxid : x.id = id) (hl₁ : ∀ y ∈ l₁, y.id ≠ id) :
    resolveSuccess s id r =
      { s with
        queue := l₁ ++
          { x with status := Status.completed, progress := 100, itemId := respItemId r } :: l₂
        delivered := s.delivered
          ++ s.listeners.map (fun l => (l, l₁ ++
              { x with status := Status.processing, progress := 70, itemId := respItemId r } :: l₂))
          ++ s.listeners.map (fun l => (l, l₁ ++
              { x with status := Status.completed, progress := 100, itemId := respItemId r } :: l₂)) } := by
  subst hxid
  have hbl : ∀ y ∈ l₁, (y.id == x.id) = false := fun y hy => by
    simpa using hl₁ y hy
  have hany : s.queue.any (fun j => j.id == x.id) = true := by
    rw [hq]
    exact List.any_eq_true.mpr ⟨x, by simp, by simp⟩
  have hupd1 : updateFirst (fun j => j.id == x.id)
      (fun j => { j with status := Status.processing, progress := 70, itemId := respItemId r })
      s.queue
      = l₁ ++ { x with status := Status.processing, progress := 70, itemId := respItemId r } :: l₂ := by
    rw [hq]
    exact updateFirst_append_not _ hbl (by simp)
  have hany2 : (l₁ ++ { x with status := Status.processing, progress := 70, itemId := respItemId r } :: l₂).any (fun j => j.id == x.id) = true :=
    List.any_eq_true.mpr
      ⟨{ x with status := Status.processing, progress := 70, itemId := respItemId r }, by simp, by simp⟩
  have hupd2 : updateFirst (fun j => j.id == x.id)
      (fun j => { j with status := Status.completed, progress := 100 })
      (l₁ ++ { x with status := Status.processing, progress := 70, itemId := respItemId r } :: l₂)
      = l₁ ++ { x with status := Status.completed, progress := 100, itemId := respItemId r } :: l₂ :=
    updateFirst_append_not _ hbl (by simp)
  simp [resolveSuccess, updateJob, notify, hany, hany2, hupd1, hupd2]

lemma resolveSuccess_absent {s : QState} {id : Nat} {r : ApiResponse}
    (h : ∀ j ∈ s.queue, j.id ≠ id) : resolveSuccess s id r = s := by
  unfold resolveSuccess
  rw [updateJob_of_not_mem h, updateJob_of_not_mem h]

lemma resolveFailure_decomp {s : QState} {id : Nat} {e : ApiError}
    {l₁ l₂ : List UploadJob} {x : UploadJob}
    (hq : s.queue = l₁ ++ x :: l₂) (hxid : x.id = id) (hl₁ : ∀ y ∈ l₁, y.id ≠ id) :
    resolveFailure s id e =
      { s with
        queue := l₁ ++ { x with status := Status.failed, error := some (errMsg e) } :: l₂
        delivered := s.delivered
          ++ s.listeners.map (fun l =>
              (l, l₁ ++ { x with status := Status.failed, error := some (errMsg e) } :: l₂)) } := by
  subst hxid
  have hbl : ∀ y ∈ l₁, (y.id == x.id) = false := fun y hy => by
    simpa using hl₁ y hy
  have hany : s.queue.any (fun j => j.id == x.id) = true := by
    rw [hq]
    exact List.any_eq_true.mpr ⟨x, by simp, by simp⟩
  have hupd : updateFirst (fun j => j.id == x.id)
      (fun j => { j with status := Status.failed, error := some (errMsg e) }) s.queue
      = l₁ ++ { x with status := Status.failed, error := some (errMsg e) } :: l₂ := by
    rw [hq]
    exact updateFirst_append_not _ hbl (by simp)
  simp [resolveFailure, updateJob, notify, hany, hupd]

lemma resolveFailure_absent {s : QState} {id : Nat} {e : ApiError}
    (h : ∀ j ∈ s.queue, j.id ≠ id) : resolveFailure s id e = s := by
  unfold resolveFailure
  rw [updateJob_of_not_mem h]

lemma core_replaceMid {s : QState} {l₁ l₂ : List UploadJob} {x y : UploadJob} (hc : Core s)
    (hq : s.queue = l₁ ++ x :: l₂)
    (hid : y.id = x.id) (hprev : y.preview = x.preview)
    (hst : inflightStatus y = true → y.id ∈ s.inflight)
    {D : List (Nat × List UploadJob)}
    (hD : ∀ p ∈ D, p.2.countP inflightStatus ≤ concurrency) :
    Core { s with queue := l₁ ++ y :: l₂, delivered := s.delivered ++ D } := by
  have hmem : ∀ j, j ∈ l₁ ∨ j = x ∨ j ∈ l₂ → j ∈ s.queue := by
    intro j hj
    rw [hq]
    rcases hj with h | rfl | h
    · exact List.mem_append.mpr (Or.inl h)
    · exact List.mem_append.mpr (Or.inr (List.mem_cons_self _ _))
    · exact List.mem_append.mpr (Or.inr (List.mem_cons_of_mem _ h))
  have hcov : ∀ j ∈ l₁ ++ y :: l₂, inflightStatus j = true → j.id ∈ s.inflight := by
    intro j hj hstj
    rcases List.mem_append.mp hj with h | h
    · exact hc.upInflight j (hmem j (Or.inl h)) hstj
    · rcases List.mem_cons.mp h with rfl | h
      · exact hst hstj
      · exact hc.upInflight j (hmem j (Or.inr (Or.inr h))) hstj
  have hidsame : (l₁ ++ y :: l₂).map UploadJob.id = s.queue.map UploadJob.id := by
    rw [hq]
    simp [hid]
  have hprevsame : (l₁ ++ y :: l₂).filterMap UploadJob.preview
      = s.queue.filterMap UploadJob.preview := by
    rw [hq]
    simp [List.filterMap_append, List.filterMap_cons, hprev]
  refine ⟨hc.activeEq, hc.activeLe, ?_, ?_, ?_, ?_, ?_, hc.cFstNodup, hc.cSndNodup,
    hc.cIdLt, hc.cPvLt, ?_, hc.revCreated, ?_⟩
  · intro j hj
    show j.id < s.nextJobId
    rcases List.mem_append.mp hj with h | h
    · exact hc.idLt j (hmem j (Or.inl h))
    · rcases List.mem_cons.mp h with rfl | h
      · rw [hid]
        exact hc.idLt x (hmem x (Or.inr (Or.inl rfl)))
      · exact hc.idLt j (hmem j (Or.inr (Or.inr h)))
  · show ((l₁ ++ y :: l₂).map UploadJob.id).Nodup
    rw [hidsame]
    exact hc.idNodup
  · exact hcov
  · intro j hj
    show ∃ pv, j.preview = some pv ∧ (j.id, pv) ∈ s.createdJobs
    rcases List.mem_append.mp hj with h | h
    · exact hc.jobPrev j (hmem j (Or.inl h))
    · rcases List.mem_cons.mp h with rfl | h
      · obtain ⟨pv, hpv, hent⟩ := hc.jobPrev x (hmem x (Or.inr (Or.inl rfl)))
        exact ⟨pv, by rw [hprev]; exact hpv, by rw [hid]; exact hent⟩
      · exact hc.jobPrev j (hmem j (Or.inr (Or.inr h)))
  · show ((l₁ ++ y :: l₂).filterMap UploadJob.preview).Nodup
    rw [hprevsame]
    exact hc.pvNodup
  · intro p hp
    show s.revoked.count p.2 = if p.1 ∈ (l₁ ++ y :: l₂).map UploadJob.id then 0 else 1
    rw [hidsame]
    exact hc.revCount p hp
  · intro p hp
    rcases List.mem_append.mp hp with h | h
    · exact hc.deliveredLe p h
    · exact hD p h

lemma snapshot_count_le {s : QState} (hc : Core s) {l₁ l₂ : List UploadJob} {x x' : UploadJob}
    (hq : s.queue = l₁ ++ x :: l₂) (hid : x'.id = x.id)
    (hst : inflightStatus x' = true → x'.id ∈ s.inflight) :
    (l₁ ++ x' :: l₂).countP inflightStatus ≤ concurrency := by
  have hmem : ∀ j, j ∈ l₁ ∨ j ∈ l₂ → j ∈ s.queue := by
    intro j hj
    rw [hq]
    rcases hj with h | h
    · exact List.mem_append.mpr (Or.inl h)
    · exact List.mem_append.mpr (Or.inr (List.mem_cons_of_mem _ h))
  have hidsame : (l₁ ++ x' :: l₂).map UploadJob.id = s.queue.map UploadJob.id := by
    rw [hq]
    simp [hid]
  have h := countP_le_of_key_covered (q := inflightStatus) (l := l₁ ++ x' :: l₂)
    UploadJob.id s.inflight (by rw [hidsame]; exact hc.idNodup) ?_
  · calc (l₁ ++ x' :: l₂).countP inflightStatus ≤ s.inflight.length := h
      _ = s.activeUploads := hc.activeEq.symm
      _ ≤ concurrency := hc.activeLe
  · intro j hj hstj
    rcases List.mem_append.mp hj with h' | h'
    · exact hc.upInflight j (hmem j (Or.inl h')) hstj
    · rcases List.mem_cons.mp h' with rfl | h'
      · exact hst hstj
      · exact hc.upInflight j (hmem j (Or.inr h')) hstj

lemma core_eraseTail {s : QState} {id : Nat} (hc : Core s) (hin : id ∈ s.inflight)
    (hne : ∀ j ∈ s.queue, inflightStatus j = true → j.id ≠ id) :
    Core { s with inflight := s.inflight.erase id, activeUploads := s.activeUploads - 1 } := by
  have hlen : (s.inflight.erase id).length = s.inflight.length - 1 :=
    List.length_erase_of_mem hin
  refine ⟨?_, ?_, hc.idLt, hc.idNodup, ?_, hc.jobPrev, hc.pvNodup, hc.cFstNodup, hc.cSndNodup,
    hc.cIdLt, hc.cPvLt, hc.revCount, hc.revCreated, hc.deliveredLe⟩
  · show s.activeUploads - 1 = (s.inflight.erase id).length
    rw [hlen, hc.activeEq]
  · show s.activeUploads - 1 ≤ concurrency
    have := hc.activeLe
    omega
  · intro j hj hstj
    exact List.mem_erase_of_ne (hne j hj hstj) |>.mpr (hc.upInflight j hj hstj)

lemma find?_eq_of_decomp {α : Type _} {p : α → Bool} {l₁ l₂ : List α} {x : α}
    (hl₁ : ∀ y ∈ l₁, p y = false) (hx : p x = true) :
    (l₁ ++ x :: l₂).find? p = some x := by
  induction l₁ with
  | nil => simp [List.find?_cons_of_pos _ hx]
  | cons a t ih =>
      rw [List.cons_append, List.find?_cons_of_neg]
      · exact ih fun y hy => hl₁ y (List.mem_cons_of_mem a hy)
      · simp [hl₁ a (List.mem_cons_self a t)]

lemma inv_finishJob {s : QState} {id : Nat} (hI : Inv s) (hin : id ∈ s.inflight) (o : Outcome) :
    Inv (finishJob s id o) := by
  obtain ⟨hc, hidle⟩ := hI
  have hnotfalse : s.isProcessing = false → False := by
    intro hf
    have h0 := (hidle hf).2
    rw [hc.activeEq, List.length_eq_zero] at h0
    rw [h0] at hin
    simp at hin
  by_cases hmem : ∃ x ∈ s.queue, x.id = id
  · obtain ⟨x, hx, hxid⟩ := hmem
    obtain ⟨l₁, l₂, hq, hl₁0, hl₂0⟩ := queue_decomp_of_mem hc.idNodup hx
    have hl₁ : ∀ y ∈ l₁, y.id ≠ id := fun y hy => hxid ▸ hl₁0 y hy
    have hl₂ : ∀ y ∈ l₂, y.id ≠ id := fun y hy => hxid ▸ hl₂0 y hy
    cases o with
    | success r =>
        show Inv { resolveSuccess s id r with
          inflight := (resolveSuccess s id r).inflight.erase id
          activeUploads := (resolveSuccess s id r).activeUploads - 1 }
        rw [resolveSuccess_decomp hq hxid hl₁]
        have hD1 : ∀ p ∈ (s.listeners.map (fun l => (l, l₁ ++
              { x with status := Status.processing, progress := 70, itemId := respItemId r } :: l₂))
            ++ s.listeners.map (fun l => (l, l₁ ++
              { x with status := Status.completed, progress := 100, itemId := respItemId r } :: l₂))),
            p.2.countP inflightStatus ≤ concurrency := by
          intro p hp
          rcases List.mem_append.mp hp with h | h
          · obtain ⟨l, _, rfl⟩ := List.mem_map.mp h
            exact snapshot_count_le hc hq rfl
              (fun _ => by show x.id ∈ s.inflight; rw [hxid]; exact hin)
          · obtain ⟨l, _, rfl⟩ := List.mem_map.mp h
            exact snapshot_count_le hc hq rfl (by intro h'; simp [inflightStatus] at h')
        have hCore := core_replaceMid hc hq
          (y := { x with status := Status.completed, progress := 100, itemId := respItemId r })
          rfl rfl (by intro h; simp [inflightStatus] at h) hD1
        rw [← List.append_assoc] at hCore
        have hne : ∀ j ∈ (l₁ ++
            { x with status := Status.completed, progress := 100, itemId := respItemId r } :: l₂),
            inflightStatus j = true → j.id ≠ id := by
          intro j hj hstj
          rcases List.mem_append.mp hj with h | h
          · exact hl₁ j h
          · rcases List.mem_cons.mp h with rfl | h
            · simp [inflightStatus] at hstj
            · exact hl₂ j h
        exact ⟨core_eraseTail hCore hin hne, fun hf => absurd (hnotfalse hf) (by simp)⟩
    | failure e =>
        show Inv { resolveFailure s id e with
          inflight := (resolveFailure s id e).inflight.erase id
          activeUploads := (resolveFailure s id e).activeUploads - 1 }
        rw [resolveFailure_decomp hq hxid hl₁]
        have hD1 : ∀ p ∈ s.listeners.map (fun l =>
            (l, l₁ ++ { x with status := Status.failed, error := some (errMsg e) } :: l₂)),
            p.2.countP inflightStatus ≤ concurrency := by
          intro p hp
          obtain ⟨l, _, rfl⟩ := List.mem_map.mp hp
          exact snapshot_count_le hc hq rfl (by intro h'; simp [inflightStatus] at h')
        have hCore := core_replaceMid hc hq
          (y := { x with status := Status.failed, error := some (errMsg e) })
          rfl rfl (by intro h; simp [inflightStatus] at h) hD1
        have hne : ∀ j ∈ (l₁ ++
            { x with status := Status.failed, error := some (errMsg e) } :: l₂),
            inflightStatus j = true → j.id ≠ id := by
          intro j hj hstj
          rcases List.mem_append.mp hj with h | h
          · exact hl₁ j h
          · rcases List.mem_cons.mp h with rfl | h
            · simp [inflightStatus] at hstj
            · exact hl₂ j h
        exact ⟨core_eraseTail hCore hin hne, fun hf => absurd (hnotfalse hf) (by simp)⟩
  · have hall : ∀ j ∈ s.queue, j.id ≠ id := by
      intro j hj hje
      exact hmem ⟨j, hj, hje⟩
    have hne : ∀ j ∈ s.queue, inflightStatus j = true → j.id ≠ id := fun j hj _ => hall j hj
    cases o with
    | success r =>
        show Inv { resolveSuccess s id r with
          inflight := (resolveSuccess s id r).inflight.erase id
          activeUploads := (resolveSuccess s id r).activeUploads - 1 }
        rw [resolveSuccess_absent hall]
        exact ⟨core_eraseTail hc hin hne, fun hf => absurd (hnotfalse hf) (by simp)⟩
    | failure e =>
        show Inv { resolveFailure s id e with
          inflight := (resolveFailure s id e).inflight.erase id
          activeUploads := (resolveFailure s id e).activeUploads - 1 }
        rw [resolveFailure_absent hall]
        exact ⟨core_eraseTail hc hin hne, fun hf => absurd (hnotfalse hf) (by simp)⟩

lemma core_updateReset {s : QState} (hc : Core s) (id : Nat) :
    Core (updateJob s id
      (fun j => { j with status := Status.pending, progress := 0, error := none })) := by
  by_cases hmem : ∃ x ∈ s.queue, x.id = id
  · obtain ⟨x, hx, hxid⟩ := hmem
    obtain ⟨l₁, l₂, hq, hl₁0, _⟩ := queue_decomp_of_mem hc.idNodup hx
    have hl₁ : ∀ y ∈ l₁, y.id ≠ id := fun y hy => hxid ▸ hl₁0 y hy
    rw [updateJob_of_decomp hq hxid hl₁]
    have hD : ∀ p ∈ s.listeners.map (fun l =>
        (l, l₁ ++ { x with status := Status.pending, progress := 0, error := none } :: l₂)),
        p.2.countP inflightStatus ≤ concurrency := by
      intro p hp
      obtain ⟨l, _, rfl⟩ := List.mem_map.mp hp
      exact snapshot_count_le hc hq rfl (by intro h'; simp [inflightStatus] at h')
    exact core_replaceMid hc hq
      (y := { x with status := Status.pending, progress := 0, error := none })
      rfl rfl (by intro h'; simp [inflightStatus] at h') hD
  · rw [updateJob_of_not_mem (fun j hj hje => hmem ⟨j, hj, hje⟩)]
    exact hc

lemma inv_retryJob {s : QState} (hI : Inv s) (id : Nat) : Inv (retryJob s id) :=
  inv_processQueue (core_updateReset hI.1 id)

lemma removeJob_decomp {s : QState} {id pv : Nat} {x : UploadJob} {l₁ l₂ : List UploadJob}
    (hq : s.queue = l₁ ++ x :: l₂) (hxid : x.id = id)
    (hl₁ : ∀ y ∈ l₁, y.id ≠ id) (hl₂ : ∀ y ∈ l₂, y.id ≠ id) (hpv : x.preview = some pv) :
    removeJob s id = { s with
      queue := l₁ ++ l₂
      revoked := s.revoked ++ [pv]
      delivered := s.delivered ++ s.listeners.map (fun l => (l, l₁ ++ l₂)) } := by
  have hfind : s.queue.find? (fun j => j.id == id) = some x := by
    rw [hq]
    exact find?_eq_of_decomp (fun y hy => by simpa using hl₁ y hy) (by simpa using hxid)
  have hfilter : s.queue.filter (fun job => ! (job.id == id)) = l₁ ++ l₂ := by
    rw [hq, List.filter_append, List.filter_cons]
    rw [show (! (x.id == id)) = false by simp [hxid]]
    rw [List.filter_eq_self.mpr (fun y hy => by simpa using hl₁ y hy),
      List.filter_eq_self.mpr (fun y hy => by simpa using hl₂ y hy)]
    simp
  simp only [removeJob, hfind, Option.some_bind, hpv]
  simp [notify, hfilter]

lemma removeJob_absent {s : QState} {id : Nat} (h : ∀ j ∈ s.queue, j.id ≠ id) :
    removeJob s id = notify s := by
  have hfind : s.queue.find? (fun j => j.id == id) = none := by
    rw [List.find?_eq_none]
    intro j hj
    simpa using h j hj
  have hfilter : s.queue.filter (fun job => ! (job.id == id)) = s.queue :=
    List.filter_eq_self.mpr (fun j hj => by simpa using h j hj)
  simp only [removeJob, hfind, Option.none_bind]
  simp [notify, hfilter]

lemma core_notify {s : QState} (hc : Core s) : Core (notify s) := by
  refine ⟨hc.activeEq, hc.activeLe, hc.idLt, hc.idNodup, hc.upInflight, hc.jobPrev, hc.pvNodup,
    hc.cFstNodup, hc.cSndNodup, hc.cIdLt, hc.cPvLt, hc.revCount, hc.revCreated, ?_⟩
  intro p hp
  rcases List.mem_append.mp hp with h | h
  · exact hc.deliveredLe p h
  · obtain ⟨l, _, rfl⟩ := List.mem_map.mp h
    exact core_count_le hc

lemma inv_notify {s : QState} (hI : Inv s) : Inv (notify s) :=
  ⟨core_notify hI.1, fun hf => hI.2 hf⟩

lemma inv_removeJob {s : QState} (hI : Inv s) (id : Nat) : Inv (removeJob s id) := by
  obtain ⟨hc, hidle⟩ := hI
  by_cases hmem : ∃ x ∈ s.queue, x.id = id
  · obtain ⟨x, hx, hxid⟩ := hmem
    obtain ⟨l₁, l₂, hq, hl₁0, hl₂0⟩ := queue_decomp_of_mem hc.idNodup hx
    have hl₁ : ∀ y ∈ l₁, y.id ≠ id := fun y hy => hxid ▸ hl₁0 y hy
    have hl₂ : ∀ y ∈ l₂, y.id ≠ id := fun y hy => hxid ▸ hl₂0 y hy
    obtain ⟨pv, hpv, hent⟩ := hc.jobPrev x hx
    rw [removeJob_decomp hq hxid hl₁ hl₂ hpv]
    have hsub : List.Sublist (l₁ ++ l₂) s.queue := by
      rw [hq]
      exact (List.sublist_cons_self x l₂).append_left l₁
    have hmem' : ∀ j ∈ l₁ ++ l₂, j ∈ s.queue := fun j hj => hsub.subset hj
    have hxe : x.id = id := hxid
    have hxm : x.id ∈ s.queue.map UploadJob.id := List.mem_map_of_mem UploadJob.id hx
    have hnewids : ∀ a, a ∈ (l₁ ++ l₂).map UploadJob.id ↔
        (a ∈ s.queue.map UploadJob.id ∧ a ≠ id) := by
      intro a
      constructor
      · intro ha
        obtain ⟨j, hj, rfl⟩ := List.mem_map.mp ha
        refine ⟨List.mem_map_of_mem UploadJob.id (hmem' j hj), ?_⟩
        rcases List.mem_append.mp hj with h | h
        · exact hl₁ j h
        · exact hl₂ j h
      · rintro ⟨ha, hne⟩
        obtain ⟨j, hj, rfl⟩ := mem_of_id_mem ha
        rw [hq] at hj
        rcases List.mem_append.mp hj with h | h
        · exact List.mem_map_of_mem UploadJob.id (List.mem_append.mpr (Or.inl h))
        · rcases List.mem_cons.mp h with rfl | h
          · exact absurd hxe hne
          · exact List.mem_map_of_mem UploadJob.id (List.mem_append.mpr (Or.inr h))
    have hanyf : s.isProcessing = false → (l₁ ++ l₂).any
        (fun job => job.status == Status.pending) = false := by
      intro hf
      have h0 := (hidle hf).1
      unfold hasPendingJobs at h0
      rw [List.any_eq_false] at h0 ⊢
      intro j hj
      exact h0 j (hmem' j hj)
    refine ⟨⟨hc.activeEq, hc.activeLe, ?_, ?_, ?_, ?_, ?_, hc.cFstNodup, hc.cSndNodup,
      hc.cIdLt, hc.cPvLt, ?_, ?_, ?_⟩, ?_⟩
    · intro j hj
      exact hc.idLt j (hmem' j hj)
    · exact List.Nodup.sublist (hsub.map UploadJob.id) hc.idNodup
    · intro j hj hst
      exact hc.upInflight j (hmem' j hj) hst
    · intro j hj
      exact hc.jobPrev j (hmem' j hj)
    · exact List.Nodup.sublist (hsub.filterMap UploadJob.preview) hc.pvNodup
    · intro p0 hp0
      show (s.revoked ++ [pv]).count p0.2
        = if p0.1 ∈ (l₁ ++ l₂).map UploadJob.id then 0 else 1
      rw [List.count_append]
      by_cases hsnd : p0.2 = pv
      · have hp0e : p0 = (x.id, pv) :=
          List.inj_on_of_nodup_map hc.cSndNodup hp0 hent (by simpa using hsnd)
        have hold := hc.revCount p0 hp0
        rw [hp0e] at hold ⊢
        rw [if_pos hxm] at hold
        rw [hold]
        rw [if_neg]
        · simp
        · intro hmm
          exact ((hnewids x.id).mp hmm).2 hxe
      · have hcnt1 : List.count p0.2 [pv] = 0 := by
          rw [List.count_singleton]
          simp [Ne.symm hsnd]
        rw [hcnt1]
        have hold := hc.revCount p0 hp0
        by_cases hm : p0.1 ∈ s.queue.map UploadJob.id
        · rw [if_pos hm] at hold
          have hne : p0.1 ≠ id := by
            intro he
            obtain ⟨j, hj, hjid⟩ := mem_of_id_mem hm
            have hjx : j = x := List.inj_on_of_nodup_map hc.idNodup hj hx (by rw [hjid, he, hxe])
            obtain ⟨pvj, hpvj, hentj⟩ := hc.jobPrev j hj
            have hpvx : pvj = pv := by
              rw [hjx] at hpvj
              rw [hpv] at hpvj
              exact (Option.some.inj hpvj).symm
            have : p0 = (j.id, pvj) :=
              List.inj_on_of_nodup_map hc.cFstNodup hp0 hentj (by simpa using hjid.symm)
            rw [this] at hsnd
            exact hsnd hpvx
          rw [if_pos ((hnewids p0.1).mpr ⟨hm, hne⟩), hold]
        · rw [if_neg hm] at hold
          rw [if_neg, hold]
          intro hmm
          exact hm ((hnewids p0.1).mp hmm).1
    · intro r hr
      rcases List.mem_append.mp hr with h | h
      · exact hc.revCreated r h
      · have : r = pv := by simpa using h
        exact ⟨(x.id, pv), hent, by rw [this]⟩
    · intro p hp
      rcases List.mem_append.mp hp with h | h
      · exact hc.deliveredLe p h
      · obtain ⟨l, _, rfl⟩ := List.mem_map.mp h
        show (l₁ ++ l₂).countP inflightStatus ≤ concurrency
        calc (l₁ ++ l₂).countP inflightStatus
            ≤ s.queue.countP inflightStatus := hsub.countP_le _
          _ ≤ concurrency := core_count_le hc
    · intro hf
      exact ⟨hanyf hf, (hidle hf).2⟩
  · rw [removeJob_absent (fun j hj hje => hmem ⟨j, hj, hje⟩)]
    exact inv_notify ⟨hc, hidle⟩

lemma inv_clearCompleted {s : QState} (hI : Inv s) : Inv (clearCompleted s) := by
  obtain ⟨hc, hidle⟩ := hI
  unfold clearCompleted
  set pvs := (s.queue.filter (fun job => job.status == Status.completed)).filterMap
    UploadJob.preview with hpvs
  set newq := s.queue.filter (fun job => ! (job.status == Status.completed)) with hnewq
  have hsub : List.Sublist newq s.queue := List.filter_sublist s.queue
  have hsubc : List.Sublist (s.queue.filter (fun job => job.status == Status.completed)) s.queue :=
    List.filter_sublist s.queue
  have hpvsSub : List.Sublist pvs (s.queue.filterMap UploadJob.preview) :=
    hsubc.filterMap UploadJob.preview
  have hmem' : ∀ j ∈ newq, j ∈ s.queue := fun j hj => hsub.subset hj
  have hinj := List.inj_on_of_nodup_map hc.idNodup
  -- a preview value appears in `pvs` only through the unique queue job carrying it
  have hpvsMem : ∀ {q : Nat}, q ∈ pvs →
      ∃ k ∈ s.queue, k.status = Status.completed ∧ k.preview = some q := by
    intro q hq
    obtain ⟨k, hk, hkq⟩ := List.mem_filterMap.mp hq
    have hk' := List.mem_filter.mp hk
    exact ⟨k, hk'.1, by simpa using hk'.2, hkq⟩
  refine ⟨⟨hc.activeEq, hc.activeLe, ?_, ?_, ?_, ?_, ?_, hc.cFstNodup, hc.cSndNodup,
    hc.cIdLt, hc.cPvLt, ?_, ?_, ?_⟩, ?_⟩
  · intro j hj
    exact hc.idLt j (hmem' j hj)
  · exact List.Nodup.sublist (hsub.map UploadJob.id) hc.idNodup
  · intro j hj hst
    exact hc.upInflight j (hmem' j hj) hst
  · intro j hj
    exact hc.jobPrev j (hmem' j hj)
  · exact List.Nodup.sublist (hsub.filterMap UploadJob.preview) hc.pvNodup
  · intro p0 hp0
    show (s.revoked ++ pvs).count p0.2 = if p0.1 ∈ newq.map UploadJob.id then 0 else 1
    rw [List.count_append]
    have hold := hc.revCount p0 hp0
    by_cases hm : p0.1 ∈ s.queue.map UploadJob.id
    · obtain ⟨j, hj, hjid⟩ := mem_of_id_mem hm
      obtain ⟨pvj, hpvj, hentj⟩ := hc.jobPrev j hj
      have hp0e : p0 = (j.id, pvj) :=
        List.inj_on_of_nodup_map hc.cFstNodup hp0 hentj (by simpa using hjid.symm)
      rw [if_pos hm] at hold
      by_cases hcomp : j.status = Status.completed
      · have hmempvs : pvj ∈ pvs := by
          refine List.mem_filterMap.mpr ⟨j, ?_, hpvj⟩
          exact List.mem_filter.mpr ⟨hj, by simp [hcomp]⟩
        have hcle : pvs.count pvj ≤ 1 := by
          calc pvs.count pvj ≤ (s.queue.filterMap UploadJob.preview).count pvj :=
              hpvsSub.count_le pvj
            _ ≤ 1 := List.nodup_iff_count_le_one.mp hc.pvNodup pvj
        have hcge : 1 ≤ pvs.count pvj := List.count_pos_iff.mpr hmempvs
        have hnomem : p0.1 ∉ newq.map UploadJob.id := by
          intro hmm
          obtain ⟨k, hk, hkid⟩ := mem_of_id_mem hmm
          have hkj : k = j := hinj (hmem' k hk) hj (by rw [hkid, hp0e])
          have := (List.mem_filter.mp hk).2
          rw [hkj] at this
          simp [hcomp] at this
        rw [if_neg hnomem, hold, hp0e]
        show 0 + pvs.count pvj = 1
        omega
      · have hmemnew : j ∈ newq := List.mem_filter.mpr ⟨hj, by simp [hcomp]⟩
        have hcnt0 : pvs.count pvj = 0 := by
          rw [List.count_eq_zero]
          intro hmm
          obtain ⟨k, hk, hkc, hkq⟩ := hpvsMem hmm
          obtain ⟨pvk, hpvk, hentk⟩ := hc.jobPrev k hk
          have hpvkj : pvk = pvj := by
            rw [hpvk] at hkq
            exact Option.some.inj hkq
          have hkent : (k.id, pvj) ∈ s.createdJobs := hpvkj ▸ hentk
          have : (k.id, pvj) = (j.id, pvj) :=
            List.inj_on_of_nodup_map hc.cSndNodup hkent hentj rfl
          have hkj : k = j := hinj hk hj (by simpa using this)
          rw [hkj] at hkc
          exact hcomp hkc
        rw [if_pos, hold, hp0e]
        · show 0 + pvs.count pvj = 0
          omega
        · rw [hp0e]
          exact List.mem_map_of_mem UploadJob.id hmemnew
    · rw [if_neg hm] at hold
      have hcnt0 : pvs.count p0.2 = 0 := by
        rw [List.count_eq_zero]
        intro hmm
        obtain ⟨k, hk, hkc, hkq⟩ := hpvsMem hmm
        obtain ⟨pvk, hpvk, hentk⟩ := hc.jobPrev k hk
        have hpvkk : pvk = p0.2 := by
          rw [hpvk] at hkq
          exact Option.some.inj hkq
        have hkent : (k.id, p0.2) ∈ s.createdJobs := hpvkk ▸ hentk
        have : (k.id, p0.2) = p0 :=
          List.inj_on_of_nodup_map hc.cSndNodup hkent hp0 rfl
        apply hm
        rw [← this]
        exact List.mem_map_of_mem UploadJob.id hk
      rw [hcnt0, hold, if_neg]
      intro hmm
      obtain ⟨k, hk, hkid⟩ := mem_of_id_mem hmm
      exact hm (hkid ▸ List.mem_map_of_mem UploadJob.id (hmem' k hk))
  · intro r hr
    rcases List.mem_append.mp hr with h | h
    · exact hc.revCreated r h
    · obtain ⟨k, hk, hkc, hkq⟩ := hpvsMem h
      obtain ⟨pvk, hpvk, hentk⟩ := hc.jobPrev k hk
      have : pvk = r := by
        rw [hpvk] at hkq
        exact Option.some.inj hkq
      exact ⟨(k.id, pvk), hentk, this⟩
  · intro p hp
    rcases List.mem_append.mp hp with h | h
    · exact hc.deliveredLe p h
    · obtain ⟨l, _, rfl⟩ := List.mem_map.mp h
      show newq.countP inflightStatus ≤ concurrency
      calc newq.countP inflightStatus ≤ s.queue.countP inflightStatus := hsub.countP_le _
        _ ≤ concurrency := core_count_le hc
  · intro hf
    have h0 := hidle hf
    refine ⟨?_, h0.2⟩
    show newq.any (fun job => job.status == Status.pending) = false
    have h1 := h0.1
    unfold hasPendingJobs at h1
    rw [List.any_eq_false] at h1 ⊢
    intro j hj
    exact h1 j (hmem' j hj)

lemma inv_subscribe {s : QState} (hI : Inv s) : Inv (subscribe s).1 := by
  obtain ⟨hc, hidle⟩ := hI
  refine ⟨⟨hc.activeEq, hc.activeLe, hc.idLt, hc.idNodup, hc.upInflight, hc.jobPrev, hc.pvNodup,
    hc.cFstNodup, hc.cSndNodup, hc.cIdLt, hc.cPvLt, hc.revCount, hc.revCreated, ?_⟩,
    fun hf => hidle hf⟩
  intro p hp
  rcases List.mem_append.mp hp with h | h
  · exact hc.deliveredLe p h
  · have : p = (s.nextListener, s.queue) := by simpa using h
    rw [this]
    exact core_count_le hc

lemma inv_unsubscribe {s : QState} (hI : Inv s) (l : Nat) : Inv (unsubscribe s l) := by
  obtain ⟨hc, hidle⟩ := hI
  exact ⟨⟨hc.activeEq, hc.activeLe, hc.idLt, hc.idNodup, hc.upInflight, hc.jobPrev, hc.pvNodup,
    hc.cFstNodup, hc.cSndNodup, hc.cIdLt, hc.cPvLt, hc.revCount, hc.revCreated, hc.deliveredLe⟩,
    fun hf => hidle hf⟩

lemma mem_of_getElemQ {α : Type _} {l : List α} {i : Nat} {a : α} (h : l[i]? = some a) :
    a ∈ l := by
  obtain ⟨hi, rfl⟩ := List.getElem?_eq_some_iff.mp h
  exact List.getElem_mem hi

lemma getElemQ_mid {α : Type _} (l₁ l₂ : List α) (x : α) :
    (l₁ ++ x :: l₂)[l₁.length]? = some x := by
  rw [List.getElem?_append_right (Nat.le_refl _)]
  simp

lemma getElemQ_swap {α : Type _} (l₁ l₂ : List α) (x y : α) {i : Nat} (h : i ≠ l₁.length) :
    (l₁ ++ x :: l₂)[i]? = (l₁ ++ y :: l₂)[i]? := by
  by_cases hi : i < l₁.length
  · rw [List.getElem?_append_left hi, List.getElem?_append_left hi]
  · have hge : l₁.length ≤ i := Nat.le_of_not_lt hi
    obtain ⟨m, hm⟩ : ∃ m, i - l₁.length = m + 1 := ⟨i - l₁.length - 1, by omega⟩
    rw [List.getElem?_append_right hge, List.getElem?_append_right hge, hm]
    simp

lemma getElemQ_left_mem {α : Type _} {l₁ l₂ : List α} {x a : α} {i : Nat}
    (hi : i < l₁.length) (h : (l₁ ++ x :: l₂)[i]? = some a) : a ∈ l₁ := by
  rw [List.getElem?_append_left hi] at h
  exact mem_of_getElemQ h

lemma updateJob_length (s : QState) (id : Nat) (f : UploadJob → UploadJob) :
    (updateJob s id f).queue.length = s.queue.length := by
  unfold updateJob
  split
  · show (updateFirst (fun j => j.id == id) f s.queue).length = s.queue.length
    exact updateFirst_length _ _ _
  · rfl

lemma processJobStart_length (s : QState) (id : Nat) :
    (processJobStart s id).queue.length = s.queue.length := by
  show (updateJob (updateJob s id fun j => { j with status := Status.uploading, progress := 10 })
      id fun j => { j with progress := 30 }).queue.length = s.queue.length
  rw [updateJob_length, updateJob_length]

lemma spawnLoop_queue_length (n : Nat) (s : QState) :
    (spawnLoop n s).queue.length = s.queue.length := by
  induction n generalizing s with
  | zero => rfl
  | succ n ih =>
      rw [spawnLoop]
      split
      · split
        · rw [ih, processJobStart_length]
        · rfl
      · rfl

lemma schedTick_queue_length (s : QState) :
    (schedTick s).queue.length = s.queue.length := by
  unfold schedTick
  split
  · exact spawnLoop_queue_length _ _
  · rfl

lemma spawnLoop_succ_go {n : Nat} {s : QState} {job : UploadJob}
    (hcond : (decide (s.activeUploads < concurrency) && hasPendingJobs s) = true)
    (hjob : getNextPendingJob s = some job) :
    spawnLoop (n + 1) s
      = spawnLoop n (processJobStart { s with activeUploads := s.activeUploads + 1 } job.id) := by
  rw [spawnLoop, if_pos hcond, hjob]

lemma spawnLoop_succ_stop {n : Nat} {s : QState}
    (hcond : ¬ (decide (s.activeUploads < concurrency) && hasPendingJobs s) = true) :
    spawnLoop (n + 1) s = s := by
  rw [spawnLoop, if_neg hcond]

/-- Effect of one scheduler pass on each queue position: a job is either
left exactly as it was, or it was `pending` and was started (now
`uploading` with `progress` 30). -/
lemma spawnLoop_statusQ {s : QState} (hc : Core s) (n : Nat) :
    ∀ (i : Nat) (j j' : UploadJob),
      s.queue[i]? = some j → (spawnLoop n s).queue[i]? = some j' →
      (j' = j ∨ (j.status = Status.pending ∧
        j' = { j with status := Status.uploading, progress := 30 })) := by
  induction n generalizing s with
  | zero =>
      intro i j j' hj hj'
      rw [spawnLoop] at hj'
      rw [hj] at hj'
      exact Or.inl (Option.some.inj hj').symm
  | succ n ih =>
      intro i j j' hj hj'
      by_cases hcond : (decide (s.activeUploads < concurrency) && hasPendingJobs s) = true
      · cases hgn : getNextPendingJob s with
        | none =>
            exfalso
            obtain ⟨_, hpend⟩ := Bool.and_eq_true_iff.mp hcond
            obtain ⟨z, hz, hpz⟩ := List.any_eq_true.mp hpend
            have : s.queue.find? (fun job => job.status == Status.pending) ≠ none := by
              intro hnone
              exact absurd hpz (by simpa using List.find?_eq_none.mp hnone z hz)
            exact this (by simpa [getNextPendingJob] using hgn)
        | some job =>
            rw [spawnLoop_succ_go hcond hgn] at hj'
            obtain ⟨hlt, hpend⟩ := Bool.and_eq_true_iff.mp hcond
            obtain ⟨l₁, l₂, hq, hpbool, hl₁p⟩ :=
              find?_decomp (by simpa [getNextPendingJob] using hgn)
            have hids := ids_ne_of_nodup (hq ▸ hc.idNodup)
            have hdecomp := processJobStart_decomp hq hids.1 (s.activeUploads + 1)
            have hc₁ := core_spawnOne hc (by simpa using hlt) hgn
            rw [hdecomp] at hj' hc₁
            by_cases hii : i = l₁.length
            · subst hii
              have hmid : s.queue[l₁.length]? = some job := by
                rw [hq]
                exact getElemQ_mid l₁ l₂ job
              have hjob' : j = job := by
                rw [hmid] at hj
                exact (Option.some.inj hj).symm
              have hmid₁ : (l₁ ++ { job with status := Status.uploading, progress := 30 } :: l₂)[l₁.length]? = some { job with status := Status.uploading, progress := 30 } :=
                getElemQ_mid l₁ l₂ _
              have hres := ih hc₁ l₁.length { job with status := Status.uploading, progress := 30 } j' hmid₁ hj'
              right
              refine ⟨by rw [hjob']; simpa using hpbool, ?_⟩
              rcases hres with h | ⟨hp, _⟩
              · rw [h, hjob']
              · simp at hp
            · have heq : (l₁ ++ { job with status := Status.uploading, progress := 30 } :: l₂)[i]? = s.queue[i]? := by
                rw [hq]
                exact getElemQ_swap l₁ l₂ _ job hii
              exact ih hc₁ i j j' (by rw [heq]; exact hj) hj'
      · rw [spawnLoop_succ_stop hcond] at hj'
        rw [hj] at hj'
        exact Or.inl (Option.some.inj hj').symm

/-- FIFO: during one scheduler pass, a pending job later in the queue is
only started if every pending job before it was started too. -/
lemma spawnLoop_fifoQ {s : QState} (hc : Core s) (n : Nat) :
    ∀ (i k : Nat) (ji jk jk' : UploadJob), i < k →
      s.queue[i]? = some ji → ji.status = Status.pending →
      s.queue[k]? = some jk → jk.status = Status.pending →
      (spawnLoop n s).queue[k]? = some jk' → jk'.status = Status.uploading →
      ∀ (ji' : UploadJob), (spawnLoop n s).queue[i]? = some ji' →
        ji'.status = Status.uploading := by
  induction n generalizing s with
  | zero =>
      intro i k ji jk jk' hik hji hpi hjk hpk hjk' hupk ji' hji'
      rw [spawnLoop] at hjk'
      rw [hjk] at hjk'
      rw [(Option.some.inj hjk').symm] at hupk
      rw [hpk] at hupk
      exact absurd hupk (by simp)
  | succ n ih =>
      intro i k ji jk jk' hik hji hpi hjk hpk hjk' hupk ji' hji'
      by_cases hcond : (decide (s.activeUploads < concurrency) && hasPendingJobs s) = true
      · cases hgn : getNextPendingJob s with
        | none =>
            exfalso
            obtain ⟨_, hpend⟩ := Bool.and_eq_true_iff.mp hcond
            obtain ⟨z, hz, hpz⟩ := List.any_eq_true.mp hpend
            have : s.queue.find? (fun job => job.status == Status.pending) ≠ none := by
              intro hnone
              exact absurd hpz (by simpa using List.find?_eq_none.mp hnone z hz)
            exact this (by simpa [getNextPendingJob] using hgn)
        | some job =>
            rw [spawnLoop_succ_go hcond hgn] at hjk' hji'
            obtain ⟨hlt, hpend⟩ := Bool.and_eq_true_iff.mp hcond
            obtain ⟨l₁, l₂, hq, hpbool, hl₁p⟩ :=
              find?_decomp (by simpa [getNextPendingJob] using hgn)
            have hids := ids_ne_of_nodup (hq ▸ hc.idNodup)
            have hdecomp := processJobStart_decomp hq hids.1 (s.activeUploads + 1)
            have hc₁ := core_spawnOne hc (by simpa using hlt) hgn
            rw [hdecomp] at hji' hjk' hc₁
            have hige : ¬ i < l₁.length := by
              intro hilt
              have hmem : ji ∈ l₁ := getElemQ_left_mem hilt (by rw [← hq]; exact hji)
              have := hl₁p ji hmem
              rw [hpi] at this
              simp at this
            by_cases hii : i = l₁.length
            · subst hii
              have hmid₁ : (l₁ ++ { job with status := Status.uploading, progress := 30 } :: l₂)[l₁.length]? = some { job with status := Status.uploading, progress := 30 } :=
                getElemQ_mid l₁ l₂ _
              have hres := spawnLoop_statusQ hc₁ n l₁.length
                { job with status := Status.uploading, progress := 30 } ji' hmid₁ hji'
              rcases hres with h | ⟨hp, _⟩
              · rw [h]
              · simp at hp
            · have hkk : k ≠ l₁.length := by omega
              have heqi : (l₁ ++ { job with status := Status.uploading, progress := 30 } :: l₂)[i]? = s.queue[i]? := by
                rw [hq]
                exact getElemQ_swap l₁ l₂ _ job hii
              have heqk : (l₁ ++ { job with status := Status.uploading, progress := 30 } :: l₂)[k]? = s.queue[k]? := by
                rw [hq]
                exact getElemQ_swap l₁ l₂ _ job hkk
              exact ih hc₁ i k ji jk jk' hik (by rw [heqi]; exact hji) hpi
                (by rw [heqk]; exact hjk) hpk hjk' hupk ji' hji'
      · rw [spawnLoop_succ_stop hcond] at hjk' hji'
        rw [hjk] at hjk'
        rw [(Option.some.inj hjk').symm] at hupk
        rw [hpk] at hupk
        exact absurd hupk (by simp)

/-- Every reachable state satisfies the full invariant. -/
lemma reachable_inv {s : QState} (h : Reachable s) : Inv s := by
  induction h with
  | init => exact inv_init
  | step hr hst ih =>
      cases hst with
      | add files => exact inv_addFiles ih files
      | retry id => exact inv_retryJob ih id
      | remove id => exact inv_removeJob ih id
      | clear => exact inv_clearCompleted ih
      | sub => exact inv_subscribe ih
      | unsub l => exact inv_unsubscribe ih l
      | tick hp => exact inv_schedTick ih.1 hp
      | resolve id o hin => exact inv_finishJob ih hin o

/-- All queued jobs and all jobs appearing in any delivered snapshot carry
files that passed the `addFiles` boundary validation. -/
def ValidP (s : QState) : Prop :=
  (∀ j ∈ s.queue, isValidFile j.file = true) ∧
  (∀ p ∈ s.delivered, ∀ j ∈ p.2, isValidFile j.file = true)

lemma validP_notify {s : QState} (hv : ValidP s) : ValidP (notify s) := by
  refine ⟨hv.1, ?_⟩
  intro p hp
  rcases List.mem_append.mp hp with h | h
  · exact hv.2 p h
  · obtain ⟨l, _, rfl⟩ := List.mem_map.mp h
    exact hv.1

lemma validP_updateJob {s : QState} (id : Nat) (f : UploadJob → UploadJob)
    (hv : ValidP s) (hf : ∀ j, (f j).file = j.file) : ValidP (updateJob s id f) := by
  have hq : ∀ j ∈ (updateJob s id f).queue, isValidFile j.file = true := by
    intro j hj
    rcases updateJob_mem hj with h | ⟨x, hx, _, rfl⟩
    · exact hv.1 j h
    · rw [hf]
      exact hv.1 x hx
  refine ⟨hq, ?_⟩
  intro p hp
  rcases updateJob_delivered_mem hp with h | h
  · exact hv.2 p h
  · intro j hj
    rw [h] at hj
    exact hq j hj

lemma validP_processJobStart {s : QState} (hv : ValidP s) (id : Nat) :
    ValidP (processJobStart s id) := by
  have h1 := validP_updateJob id
    (fun j => { j with status := Status.uploading, progress := 10 }) hv (fun j => rfl)
  have h2 := validP_updateJob id (fun j => { j with progress := 30 }) h1 (fun j => rfl)
  exact h2

lemma validP_spawnLoop {s : QState} (hv : ValidP s) (n : Nat) : ValidP (spawnLoop n s) := by
  induction n generalizing s with
  | zero => exact hv
  | succ n ih =>
      rw [spawnLoop]
      split
      · split
        · exact ih (validP_processJobStart
            (s := { s with activeUploads := s.activeUploads + 1 }) ⟨hv.1, hv.2⟩ _)
        · exact hv
      · exact hv

lemma validP_schedTick {s : QState} (hv : ValidP s) : ValidP (schedTick s) := by
  unfold schedTick
  split
  · exact validP_spawnLoop hv _
  · exact hv

lemma validP_processQueue {s : QState} (hv : ValidP s) : ValidP (processQueue s) := by
  unfold processQueue
  split
  · exact hv
  · exact validP_schedTick hv

lemma validP_addFilesCore {s : QState} (hv : ValidP s) (files : List File) :
    ValidP (addFilesCore s files) := by
  unfold addFilesCore
  dsimp only
  apply validP_notify
  refine ⟨?_, hv.2⟩
  intro j hj
  rcases List.mem_append.mp hj with h | h
  · exact hv.1 j h
  · obtain ⟨k, hk, rfl⟩ := mem_mkJobs h
    exact List.of_mem_filter (List.get_mem (files.filter isValidFile) k hk)

lemma validP_resolve {s : QState} (hv : ValidP s) (id : Nat) (o : Outcome) :
    ValidP (finishJob s id o) := by
  unfold finishJob
  cases o with
  | success r =>
      dsimp only
      have h1 := validP_updateJob id
        (fun j => { j with status := Status.processing, progress := 70, itemId := respItemId r })
        hv (fun j => rfl)
      have h2 := validP_updateJob id
        (fun j => { j with status := Status.completed, progress := 100 }) h1 (fun j => rfl)
      exact h2
  | failure e =>
      dsimp only
      exact validP_updateJob id
        (fun j => { j with status := Status.failed, error := some (errMsg e) }) hv (fun j => rfl)

lemma validP_removeJob {s : QState} (hv : ValidP s) (id : Nat) : ValidP (removeJob s id) := by
  unfold removeJob
  dsimp only
  have hbase : ValidP (match (s.queue.find? (fun j => j.id == id)).bind UploadJob.preview with
      | some pv => { s with revoked := s.revoked ++ [pv] }
      | none => s) := by
    split
    · exact ⟨hv.1, hv.2⟩
    · exact hv
  apply validP_notify
  refine ⟨?_, hbase.2⟩
  intro j hj
  exact hbase.1 j (List.mem_of_mem_filter hj)

lemma validP_clearCompleted {s : QState} (hv : ValidP s) : ValidP (clearCompleted s) := by
  unfold clearCompleted
  apply validP_notify
  refine ⟨?_, hv.2⟩
  intro j hj
  exact hv.1 j (List.mem_of_mem_filter hj)

lemma validP_subscribe {s : QState} (hv : ValidP s) : ValidP (subscribe s).1 := by
  refine ⟨hv.1, ?_⟩
  intro p hp
  rcases List.mem_append.mp hp with h | h
  · exact hv.2 p h
  · have : p = (s.nextListener, s.queue) := by simpa using h
    rw [this]
    exact hv.1

/-- In every reachable state, every job in the queue and every job in every
snapshot ever delivered has a file accepted by the boundary validation:
rejected files never become jobs and never appear in a snapshot. -/
lemma reachable_valid {s : QState} (h : Reachable s) : ValidP s := by
  induction h with
  | init => exact ⟨by simp [init], by simp [init]⟩
  | step hr hst ih =>
      cases hst with
      | add files => exact validP_processQueue (validP_addFilesCore ih files)
      | retry id =>
          exact validP_processQueue (validP_updateJob id
            (fun j => { j with status := Status.pending, progress := 0, error := none })
            ih (fun j => rfl))
      | remove id => exact validP_removeJob ih id
      | clear => exact validP_clearCompleted ih
      | sub => exact validP_subscribe ih
      | unsub l => exact ⟨ih.1, ih.2⟩
      | tick hp => exact validP_schedTick ih
      | resolve id o hin => exact validP_resolve ih id o

/-- On any state satisfying the invariant, `processQueue` is a no-op: when
the loop is live the re-entrancy guard returns immediately, and when it is
not live there is neither pending work nor an occupied slot, so the loop
exits at once. -/
lemma processQueue_eq_self {s : QState} (hI : Inv s) : processQueue s = s := by
  unfold processQueue
  split
  case isTrue h => rfl
  case isFalse h =>
    have hfalse : s.isProcessing = false := by
      cases hb : s.isProcessing
      · rfl
      · exact absurd hb h
    obtain ⟨hpend, hact⟩ := hI.2 hfalse
    unfold schedTick
    rw [if_neg]
    · cases s with
      | mk q ip au infl ls nj np nl cj rv dv =>
          simp only at hfalse
          rw [hfalse]
    · intro hcond
      rcases Bool.or_eq_true_iff.mp hcond with h1 | h1
      · rw [show hasPendingJobs { s with isProcessing := true } = hasPendingJobs s from rfl,
          hpend] at h1
        exact absurd h1 (by simp)
      · simp only [decide_eq_true_eq] at h1
        rw [show ({ s with isProcessing := true } : QState).activeUploads
          = s.activeUploads from rfl, hact] at h1
        exact absurd h1 (by simp)

/-! Concrete fixtures used to witness the claim theorems: a few files and
short reachable runs of the coordinator. -/

def filePng : File := { name := "a.png", type := "image/png", size := 1024 }

def filePng2 : File := { name := "b.png", type := "image/png", size := 2048 }

def filePng3 : File := { name := "c.png", type := "image/png", size := 4096 }

/-- Three image files enqueued at once: two begin uploading, one stays pending. -/
def s3files : QState := addFiles init [filePng, filePng2, filePng3]

/-- One image file enqueued: its upload begins immediately. -/
def sOne : QState := addFiles init [filePng]

/-- The single job's network call succeeded: the job is `completed`. -/
def sDone : QState := finishJob sOne 0
  (Outcome.success { data := some { uid := some "item-1", pid := none } })

/-- `retryJob` applied to the completed (not failed!) job: it is reset to
`pending` even though the source's doc comment says "Retry a failed job". -/
def sPend : QState := retryJob sDone 0

/-- The single job removed while its network call is still in flight. -/
def sMid : QState := removeJob sOne 0

lemma reachable_s3files : Reachable s3files :=
  Reachable.step Reachable.init (Step.add init [filePng, filePng2, filePng3])

lemma reachable_sOne : Reachable sOne :=
  Reachable.step Reachable.init (Step.add init [filePng])

lemma reachable_sDone : Reachable sDone :=
  Reachable.step reachable_sOne
    (Step.resolve sOne 0 (Outcome.success { data := some { uid := some "item-1", pid := none } })
      (by decide))

lemma reachable_sPend : Reachable sPend :=
  Reachable.step reachable_sDone (Step.retry sDone 0)

lemma reachable_sMid : Reachable sMid :=
  Reachable.step reachable_sOne (Step.remove sOne 0)

/-- C1: at every instant — in every reachable coordinator state, and in every
snapshot ever handed to a listener — the number of jobs whose status is
`uploading` or `processing` never exceeds the fixed concurrency ceiling 2,
under every interleaving of `addFiles`, `retryJob`, `removeJob`,
`clearCompleted`, scheduler ticks and network resolutions. -/
theorem C1_concurrency_never_exceeds_two {s : QState} (h : Reachable s) :
    countInFlight s ≤ 2 ∧ ∀ p ∈ s.delivered, p.2.countP inflightStatus ≤ 2 := by
  have hI := reachable_inv h
  exact ⟨core_count_le hI.1, hI.1.deliveredLe⟩

/-- C1 witness: three files enqueued at once yield exactly two in-flight jobs,
and the bound holds there. -/
theorem C1_witness :
    countInFlight s3files = 2 ∧
    (countInFlight s3files ≤ 2 ∧ ∀ p ∈ s3files.delivered, p.2.countP inflightStatus ≤ 2) :=
  ⟨by decide, C1_concurrency_never_exceeds_two reachable_s3files⟩

/-- C2: preview handles are released exactly once per exit. In every reachable
state no handle is ever revoked twice; a created handle whose job has left the
queue has been revoked exactly once; and a created handle whose job is still
queued has not been revoked at all. -/
theorem C2_preview_released_exactly_once {s : QState} (h : Reachable s) :
    (∀ pv, s.revoked.count pv ≤ 1) ∧
    ∀ p ∈ s.createdJobs,
      (p.1 ∉ s.queue.map UploadJob.id → s.revoked.count p.2 = 1) ∧
      (p.1 ∈ s.queue.map UploadJob.id → s.revoked.count p.2 = 0) := by
  have hc := (reachable_inv h).1
  constructor
  · intro pv
    by_cases hm : pv ∈ s.revoked
    · obtain ⟨p, hp, hpv⟩ := hc.revCreated pv hm
      have := hc.revCount p hp
      rw [hpv] at this
      split at this <;> omega
    · rw [List.count_eq_zero.mpr hm]
      omega
  · intro p hp
    have := hc.revCount p hp
    constructor <;> intro hmem
    · rwa [if_neg hmem] at this
    · rwa [if_pos hmem] at this

/-- C2 witness: after removing the in-flight job, its preview handle has been
revoked exactly once, and no handle anywhere was revoked twice. -/
theorem C2_witness :
    sMid.revoked.count 0 = 1 ∧ ∀ pv, sMid.revoked.count pv ≤ 1 :=
  ⟨((C2_preview_released_exactly_once reachable_sMid).2 (0, 0) (by decide)).1 (by decide),
   (C2_preview_released_exactly_once reachable_sMid).1⟩

/-- C3 counterexample: the claim "retryJob is a no-op when the job's status is
not failed" is false. In the reachable state `sDone` the only job has status
`completed` (not `failed`), yet `retryJob` resets it to `pending` with
`progress` 0: the queue snapshot changes. -/
theorem C3_counterexample :
    (∃ j ∈ sDone.queue, j.id = 0 ∧ j.status = Status.completed ∧ j.status ≠ Status.failed) ∧
    (retryJob sDone 0).queue ≠ sDone.queue ∧
    (retryJob sDone 0).queue.map (fun j => (j.status, j.progress))
      = [(Status.pending, 0)] := by
  refine ⟨by decide, by decide, by decide⟩

/-- C3 (amended): `retryJob id` is a no-op only when no job with that id
exists; when a job with the id exists — whatever its status, there is no
failed-status guard in the source — it is reset to `pending` with `progress` 0
and cleared `error`, and the scheduler is re-triggered. -/
theorem C3_retry_resets_without_guard {s : QState} (h : Reachable s) (id : Nat) :
    ((∀ j ∈ s.queue, j.id ≠ id) → retryJob s id = s) ∧
    (∀ x ∈ s.queue, x.id = id → ∃ l₁ l₂,
      s.queue = l₁ ++ x :: l₂ ∧
      retryJob s id = processQueue (notify { s with
        queue := l₁ ++ { x with status := Status.pending, progress := 0, error := none } :: l₂ })) := by
  have hI := reachable_inv h
  constructor
  · intro hall
    unfold retryJob
    rw [updateJob_of_not_mem hall]
    exact processQueue_eq_self hI
  · intro x hx hxid
    obtain ⟨l₁, l₂, hq, hl₁0, _⟩ := queue_decomp_of_mem hI.1.idNodup hx
    refine ⟨l₁, l₂, hq, ?_⟩
    unfold retryJob
    rw [updateJob_of_decomp hq hxid (fun y hy => hxid ▸ hl₁0 y hy)]

/-- The completed job sitting in `sDone`. -/
def jobDone : UploadJob := { id := 0, file := filePng, status := Status.completed, progress := 100, error := none, itemId := some "item-1", preview := some 0 }

/-- The same job after the unguarded `retryJob` reset. -/
def jobReset : UploadJob := { jobDone with status := Status.pending, progress := 0, error := none }

/-- C3 witness: retrying an id that does not exist leaves the state unchanged,
and retrying the completed job resets it through the exhibited decomposition. -/
theorem C3_witness :
    retryJob sDone 5 = sDone ∧
    ∃ l₁ l₂, sDone.queue = l₁ ++ jobDone :: l₂ ∧
      retryJob sDone 0 = processQueue (notify { sDone with queue := l₁ ++ jobReset :: l₂ }) :=
  ⟨(C3_retry_resets_without_guard reachable_sDone 5).1 (by decide),
   (C3_retry_resets_without_guard reachable_sDone 0).2 jobDone (by decide) rfl⟩

/-- C4: strict FIFO scheduling. In every reachable state: (1) the scheduler's
selection `getNextPendingJob` returns the earliest-enqueued pending job — the
queue splits around it with no pending job before it; (2) a scheduler pass
never reorders the queue (length is preserved and, by the remaining parts,
each position keeps its id); (3) whenever a concurrency slot is free and a
pending job exists, the scheduler pass starts exactly the earliest pending
job, which is `uploading` afterwards at its original position; (4) no
later-enqueued pending job begins uploading before an earlier still-pending
job: if the pass leaves position `k` uploading then it left every earlier
pending position uploading too. -/
theorem C4_fifo_scheduling {s : QState} (h : Reachable s) :
    (∀ j : UploadJob, getNextPendingJob s = some j →
      ∃ l₁ l₂, s.queue = l₁ ++ j :: l₂ ∧ j.status = Status.pending ∧
        ∀ y ∈ l₁, y.status ≠ Status.pending) ∧
    ((schedTick s).queue.length = s.queue.length) ∧
    (s.activeUploads < concurrency → ∀ j : UploadJob, getNextPendingJob s = some j →
      ∃ i : Nat, s.queue[i]? = some j ∧
        (∀ (i' : Nat) (y : UploadJob), i' < i → s.queue[i']? = some y →
          y.status ≠ Status.pending) ∧
        (schedTick s).queue[i]? = some { j with status := Status.uploading, progress := 30 }) ∧
    (∀ (i k : Nat) (ji jk jk' : UploadJob), i < k →
      s.queue[i]? = some ji → ji.status = Status.pending →
      s.queue[k]? = some jk → jk.status = Status.pending →
      (schedTick s).queue[k]? = some jk' → jk'.status = Status.uploading →
      ∀ ji' : UploadJob, (schedTick s).queue[i]? = some ji' →
        ji'.status = Status.uploading) := by
  have hc := (reachable_inv h).1
  have hsel : ∀ j : UploadJob, getNextPendingJob s = some j →
      ∃ l₁ l₂, s.queue = l₁ ++ j :: l₂ ∧ j.status = Status.pending ∧
        ∀ y ∈ l₁, y.status ≠ Status.pending := by
    intro j hj
    obtain ⟨l₁, l₂, hq, hp, hl₁⟩ := find?_decomp (by simpa [getNextPendingJob] using hj)
    refine ⟨l₁, l₂, hq, by simpa using hp, ?_⟩
    intro y hy
    have := hl₁ y hy
    simpa using this
  refine ⟨hsel, schedTick_queue_length s, ?_, ?_⟩
  · intro hlt j hj
    obtain ⟨l₁, l₂, hq, hp, hl₁⟩ := hsel j hj
    have hpendTrue : hasPendingJobs s = true := by
      unfold hasPendingJobs
      rw [hq]
      exact List.any_eq_true.mpr ⟨j, by simp, by simpa using hp⟩
    have hcondG : (hasPendingJobs s || decide (s.activeUploads > 0)) = true := by
      rw [hpendTrue]
      simp
    have hcondB : (decide (s.activeUploads < concurrency) && hasPendingJobs s) = true := by
      rw [hpendTrue]
      simpa using hlt
    refine ⟨l₁.length, by rw [hq]; exact getElemQ_mid l₁ l₂ j, ?_, ?_⟩
    · intro i' y hi' hy
      have hmem : y ∈ l₁ := getElemQ_left_mem hi' (by rw [← hq]; exact hy)
      exact hl₁ y hmem
    · unfold schedTick
      rw [if_pos hcondG]
      rw [show spawnLoop concurrency s = spawnLoop (1 + 1) s from rfl,
        spawnLoop_succ_go hcondB hj]
      have hids := ids_ne_of_nodup (hq ▸ hc.idNodup)
      have hdecomp := processJobStart_decomp hq hids.1 (s.activeUploads + 1)
      rw [hdecomp]
      have hc₁ := core_spawnOne hc (by simpa using hlt) hj
      rw [hdecomp] at hc₁
      have hmid : (l₁ ++ { j with status := Status.uploading, progress := 30 } :: l₂)[l₁.length]? = some { j with status := Status.uploading, progress := 30 } :=
        getElemQ_mid l₁ l₂ _
      set t := ({ s with queue := l₁ ++ { j with status := Status.uploading, progress := 30 } :: l₂, activeUploads := s.activeUploads + 1, inflight := s.inflight ++ [j.id], delivered := s.delivered ++ s.listeners.map (fun l => (l, l₁ ++ { j with status := Status.uploading, progress := 10 } :: l₂)) ++ s.listeners.map (fun l => (l, l₁ ++ { j with status := Status.uploading, progress := 30 } :: l₂)) } : QState) with ht

      have hlen : l₁.length < (spawnLoop 1 t).queue.length := by
        rw [spawnLoop_queue_length]
        show l₁.length < (l₁ ++ _ :: l₂).length
        simp
      obtain ⟨j', hj'⟩ : ∃ j', (spawnLoop 1 t).queue[l₁.length]? = some j' :=
        ⟨_, List.getElem?_eq_getElem hlen⟩
      have hstat := spawnLoop_statusQ hc₁ 1 l₁.length
        { j with status := Status.uploading, progress := 30 } j' hmid hj'
      rcases hstat with hsame | ⟨hpend', _⟩
      · rw [hj', hsame]
      · simp at hpend'
  · intro i k ji jk jk' hik hji hpi hjk hpk hjk' hupk ji' hji'
    unfold schedTick at hjk' hji'
    by_cases hcondG : (hasPendingJobs s || decide (s.activeUploads > 0)) = true
    · rw [if_pos hcondG] at hjk' hji'
      exact spawnLoop_fifoQ hc concurrency i k ji jk jk' hik hji hpi hjk hpk hjk' hupk ji' hji'
    · rw [if_neg hcondG] at hjk' hji'
      have : jk' = jk := by
        rw [show ({ s with isProcessing := false } : QState).queue = s.queue from rfl] at hjk'
        rw [hjk] at hjk'
        exact (Option.some.inj hjk').symm
      rw [this, hpk] at hupk
      exact absurd hupk (by simp)

/-- C4 witness: in the reachable state with one pending job and a free slot,
one scheduler pass starts exactly that job at its position. -/
theorem C4_witness :
    ∃ i : Nat, sPend.queue[i]? = some jobReset ∧
      (∀ (i' : Nat) (y : UploadJob), i' < i → sPend.queue[i']? = some y →
        y.status ≠ Status.pending) ∧
      (schedTick sPend).queue[i]? = some { jobReset with status := Status.uploading, progress := 30 } :=
  (C4_fifo_scheduling reachable_sPend).2.2.1 (by decide) jobReset (by decide)

/-- C5: `addFiles` boundary validation. The enqueue phase appends exactly the
jobs built from the files passing the filter — a file is kept iff its media
type starts with `image/` and its size is at most `10 * 1024 * 1024` bytes —
in input order (the new jobs' files, in order, are the filtered input); every
new job is `pending` with `progress` 0, no error, and a freshly generated
preview handle distinct from every live one; subscribers are then notified
with the post-append snapshot.  Dropped files never become jobs and never
appear in any snapshot: in every reachable state, every queued job and every
job of every delivered snapshot passes the filter. -/
theorem C5_addFiles_validation {s : QState} (h : Reachable s) (files : List File) :
    (addFilesCore s files).queue
      = s.queue ++ mkJobs s.nextJobId s.nextPreview (files.filter isValidFile) ∧
    (mkJobs s.nextJobId s.nextPreview (files.filter isValidFile)).map UploadJob.file
      = files.filter isValidFile ∧
    (∀ f : File, isValidFile f
      = (strStartsWith f.type "image/" && ! decide (f.size > 10 * 1024 * 1024))) ∧
    (∀ j ∈ mkJobs s.nextJobId s.nextPreview (files.filter isValidFile),
      j.status = Status.pending ∧ j.progress = 0 ∧ j.error = none ∧
      ∃ pv, j.preview = some pv ∧ s.nextPreview ≤ pv ∧
        ∀ j0 ∈ s.queue, j0.preview ≠ some pv) ∧
    ((addFilesCore s files).delivered = s.delivered ++ s.listeners.map
      (fun l => (l, s.queue ++ mkJobs s.nextJobId s.nextPreview (files.filter isValidFile)))) ∧
    ValidP (addFiles s files) := by
  have hc := (reachable_inv h).1
  refine ⟨rfl, mkJobs_map_file _ _ _, fun f => rfl, ?_, rfl, ?_⟩
  · intro j hj
    obtain ⟨k, hk, hjk⟩ := mem_mkJobs hj
    refine ⟨by rw [hjk], by rw [hjk], by rw [hjk], s.nextPreview + k, by rw [hjk],
      Nat.le_add_right _ _, ?_⟩
    intro j0 hj0 hprev
    obtain ⟨pv0, hpv0, hent⟩ := hc.jobPrev j0 hj0
    have := hc.cPvLt _ hent
    rw [hpv0] at hprev
    have : pv0 = s.nextPreview + k := Option.some.inj hprev
    omega
  · exact reachable_valid (Reachable.step h (Step.add s files))

/-- C5 witness: of four files — a valid image, a non-image, an image of
exactly 10 MiB, an 11 MiB image and a 0-byte image — `addFiles` keeps exactly
the images of at most 10 MiB, in order, as pending jobs. -/
theorem C5_witness :
    (addFilesCore init [filePng, { name := "notes.txt", type := "text/plain", size := 100 }, { name := "max.png", type := "image/png", size := 10 * 1024 * 1024 }, { name := "big.png", type := "image/png", size := 11 * 1024 * 1024 }, { name := "zero.png", type := "image/png", size := 0 }]).queue
      = init.queue ++ mkJobs init.nextJobId init.nextPreview
          ([filePng, { name := "notes.txt", type := "text/plain", size := 100 }, { name := "max.png", type := "image/png", size := 10 * 1024 * 1024 }, { name := "big.png", type := "image/png", size := 11 * 1024 * 1024 }, { name := "zero.png", type := "image/png", size := 0 }].filter isValidFile) ∧
    ([filePng, { name := "notes.txt", type := "text/plain", size := 100 }, { name := "max.png", type := "image/png", size := 10 * 1024 * 1024 }, { name := "big.png", type := "image/png", size := 11 * 1024 * 1024 }, { name := "zero.png", type := "image/png", size := 0 }].filter isValidFile)
      = [filePng, { name := "max.png", type := "image/png", size := 10 * 1024 * 1024 }, { name := "zero.png", type := "image/png", size := 0 }] :=
  ⟨(C5_addFiles_validation Reachable.init _).1, by decide⟩

/-- C6: stale results are discarded. When a network call resolves for a job id
that is no longer in the queue, neither outcome mutates the queue, notifies a
listener, or changes the listener set; only the slot is released and the call
leaves the in-flight set. -/
theorem C6_stale_result_discarded (s : QState) (id : Nat)
    (habs : ∀ j ∈ s.queue, j.id ≠ id) (o : Outcome) :
    (finishJob s id o).queue = s.queue ∧
    (finishJob s id o).delivered = s.delivered ∧
    (finishJob s id o).listeners = s.listeners ∧
    (finishJob s id o).activeUploads = s.activeUploads - 1 ∧
    (finishJob s id o).inflight = s.inflight.erase id := by
  unfold finishJob
  cases o with
  | success r =>
      dsimp only
      rw [resolveSuccess_absent habs]
      exact ⟨rfl, rfl, rfl, rfl, rfl⟩
  | failure e =>
      dsimp only
      rw [resolveFailure_absent habs]
      exact ⟨rfl, rfl, rfl, rfl, rfl⟩

/-- C6 witness: resolving the removed job's call (successfully) in `sMid`
changes neither queue nor delivery log, and releases the slot. -/
theorem C6_witness :
    (finishJob sMid 0 (Outcome.success { data := some { uid := some "item-9", pid := none } })).queue = sMid.queue ∧
    (finishJob sMid 0 (Outcome.success { data := some { uid := some "item-9", pid := none } })).delivered = sMid.delivered ∧
    (finishJob sMid 0 (Outcome.success { data := some { uid := some "item-9", pid := none } })).listeners = sMid.listeners ∧
    (finishJob sMid 0 (Outcome.success { data := some { uid := some "item-9", pid := none } })).activeUploads = sMid.activeUploads - 1 ∧
    (finishJob sMid 0 (Outcome.success { data := some { uid := some "item-9", pid := none } })).inflight = sMid.inflight.erase 0 :=
  C6_stale_result_discarded sMid 0 (by decide)
    (Outcome.success { data := some { uid := some "item-9", pid := none } })

lemma jsOrStr_truthy {a : String} (h : a ≠ "") (b : Option String) :
    jsOrStr (some a) b = some a := by
  simp [jsOrStr, h]

lemma jsOrStr_falsy {a : Option String} (h : a = none ∨ a = some "") (b : Option String) :
    jsOrStr a b = b := by
  rcases h with rfl | rfl <;> simp [jsOrStr]

/-- C7: failure handling. When the call for a queued job rejects, exactly that
job transitions to `failed` with the error message chosen by priority — the
structured backend message if present and non-empty, else the transport error
text if present and non-empty, else the literal `"Upload failed"` — its
`progress` keeps its last value, every other job is untouched, the scheduler
keeps running (`isProcessing` unchanged), the slot is released and the call
leaves the in-flight set. -/
theorem C7_failure_semantics {s : QState} (h : Reachable s) {id : Nat} {x : UploadJob}
    (hx : x ∈ s.queue) (hxid : x.id = id) (e : ApiError) :
    ∃ l₁ l₂, s.queue = l₁ ++ x :: l₂ ∧
      (finishJob s id (Outcome.failure e)).queue
        = l₁ ++ { x with status := Status.failed, error := some (errMsg e) } :: l₂ ∧
      ({ x with status := Status.failed, error := some (errMsg e) } : UploadJob).progress
        = x.progress ∧
      (finishJob s id (Outcome.failure e)).isProcessing = s.isProcessing ∧
      (finishJob s id (Outcome.failure e)).activeUploads = s.activeUploads - 1 ∧
      (finishJob s id (Outcome.failure e)).inflight = s.inflight.erase id ∧
      (∀ m : String, e.responseMessage = some m → m ≠ "" → errMsg e = m) ∧
      ((e.responseMessage = none ∨ e.responseMessage = some "") →
        ∀ m : String, e.message = some m → m ≠ "" → errMsg e = m) ∧
      ((e.responseMessage = none ∨ e.responseMessage = some "") →
        (e.message = none ∨ e.message = some "") → errMsg e = "Upload failed") := by
  have hc := (reachable_inv h).1
  obtain ⟨l₁, l₂, hq, hl₁0, _⟩ := queue_decomp_of_mem hc.idNodup hx
  have hl₁ : ∀ y ∈ l₁, y.id ≠ id := fun y hy => hxid ▸ hl₁0 y hy
  have hdec := resolveFailure_decomp hq hxid hl₁ (e := e)
  refine ⟨l₁, l₂, hq, ?_, rfl, ?_, ?_, ?_, ?_, ?_, ?_⟩
  · show (resolveFailure s id e).queue = _
    rw [hdec]
  · show (resolveFailure s id e).isProcessing = s.isProcessing
    rw [hdec]
  · show (resolveFailure s id e).activeUploads - 1 = s.activeUploads - 1
    rw [hdec]
  · show (resolveFailure s id e).inflight.erase id = s.inflight.erase id
    rw [hdec]
  · intro m hm hne
    unfold errMsg
    rw [hm, jsOrStr_truthy hne, jsOrStr_truthy hne]
    rfl
  · intro hfalsy m hm hne
    unfold errMsg
    rw [jsOrStr_falsy hfalsy, hm, jsOrStr_truthy hne]
    rfl
  · intro hfalsy1 hfalsy2
    unfold errMsg
    rw [jsOrStr_falsy hfalsy1, jsOrStr_falsy hfalsy2]
    rfl

/-- The single uploading job of `sOne`. -/
def jobUp : UploadJob := { id := 0, file := filePng, status := Status.uploading, progress := 30, error := none, itemId := none, preview := some 0 }

/-- C7 witness: failing the in-flight call of `sOne` marks its job `failed`
with the transport error text, keeps `progress` at 30 and frees the slot. -/
theorem C7_witness :
    ∃ l₁ l₂, sOne.queue = l₁ ++ jobUp :: l₂ ∧
      (finishJob sOne 0 (Outcome.failure { responseMessage := none, message := some "network down" })).queue
        = l₁ ++ { jobUp with status := Status.failed, error := some (errMsg { responseMessage := none, message := some "network down" }) } :: l₂ ∧
      ({ jobUp with status := Status.failed, error := some (errMsg { responseMessage := none, message := some "network down" }) } : UploadJob).progress = jobUp.progress ∧
      (finishJob sOne 0 (Outcome.failure { responseMessage := none, message := some "network down" })).isProcessing = sOne.isProcessing ∧
      (finishJob sOne 0 (Outcome.failure { responseMessage := none, message := some "network down" })).activeUploads = sOne.activeUploads - 1 ∧
      (finishJob sOne 0 (Outcome.failure { responseMessage := none, message := some "network down" })).inflight = sOne.inflight.erase 0 ∧
      (∀ m : String, (none : Option String) = some m → m ≠ "" →
        errMsg { responseMessage := none, message := some "network down" } = m) ∧
      (((none : Option String) = none ∨ (none : Option String) = some "") →
        ∀ m : String, (some "network down" : Option String) = some m → m ≠ "" →
        errMsg { responseMessage := none, message := some "network down" } = m) ∧
      (((none : Option String) = none ∨ (none : Option String) = some "") →
        ((some "network down" : Option String) = none ∨ (some "network down" : Option String) = some "") →
        errMsg { responseMessage := none, message := some "network down" } = "Upload failed") :=
  C7_failure_semantics reachable_sOne (by decide) rfl
    { responseMessage := none, message := some "network down" }

/-- C8: success handling. When the call for a queued job succeeds, exactly
that job first transitions to `processing` with `progress` 70 and the recorded
resource id — every listener is notified with that snapshot — and then
immediately to `completed` with `progress` 100, with no further external
signal awaited; the recorded id is taken from the response's `_id` field when
present and non-empty, else from its `id` field. -/
theorem C8_success_semantics {s : QState} (h : Reachable s) {id : Nat} {x : UploadJob}
    (hx : x ∈ s.queue) (hxid : x.id = id) (r : ApiResponse) :
    ∃ l₁ l₂, s.queue = l₁ ++ x :: l₂ ∧
      (finishJob s id (Outcome.success r)).queue
        = l₁ ++ { x with status := Status.completed, progress := 100, itemId := respItemId r } :: l₂ ∧
      (finishJob s id (Outcome.success r)).delivered
        = s.delivered
          ++ s.listeners.map (fun l => (l, l₁ ++ { x with status := Status.processing, progress := 70, itemId := respItemId r } :: l₂))
          ++ s.listeners.map (fun l => (l, l₁ ++ { x with status := Status.completed, progress := 100, itemId := respItemId r } :: l₂)) ∧
      (finishJob s id (Outcome.success r)).activeUploads = s.activeUploads - 1 ∧
      (finishJob s id (Outcome.success r)).inflight = s.inflight.erase id ∧
      (∀ d : RespData, ∀ m : String, r.data = some d → d.uid = some m → m ≠ "" →
        respItemId r = some m) ∧
      (∀ d : RespData, r.data = some d → (d.uid = none ∨ d.uid = some "") →
        respItemId r = d.pid) ∧
      (r.data = none → respItemId r = none) := by
  have hc := (reachable_inv h).1
  obtain ⟨l₁, l₂, hq, hl₁0, _⟩ := queue_decomp_of_mem hc.idNodup hx
  have hl₁ : ∀ y ∈ l₁, y.id ≠ id := fun y hy => hxid ▸ hl₁0 y hy
  have hdec := resolveSuccess_decomp hq hxid hl₁ (r := r)
  refine ⟨l₁, l₂, hq, ?_, ?_, ?_, ?_, ?_, ?_, ?_⟩
  · show (resolveSuccess s id r).queue = _
    rw [hdec]
  · show (resolveSuccess s id r).delivered = _
    rw [hdec]
  · show (resolveSuccess s id r).activeUploads - 1 = s.activeUploads - 1
    rw [hdec]
  · show (resolveSuccess s id r).inflight.erase id = s.inflight.erase id
    rw [hdec]
  · intro d m hd hm hne
    unfold respItemId
    rw [hd]
    show jsOrStr d.uid d.pid = some m
    rw [hm, jsOrStr_truthy hne]
  · intro d hd hfalsy
    unfold respItemId
    rw [hd]
    show jsOrStr d.uid d.pid = d.pid
    rw [jsOrStr_falsy hfalsy]
  · intro hd
    unfold respItemId
    rw [hd]
    rfl

/-- C8 witness: resolving `sOne`'s call successfully with `_id = "item-1"`
completes the job with `itemId = "item-1"` after a `processing` phase. -/
theorem C8_witness :
    ∃ l₁ l₂, sOne.queue = l₁ ++ jobUp :: l₂ ∧
      (finishJob sOne 0 (Outcome.success { data := some { uid := some "item-1", pid := none } })).queue
        = l₁ ++ { jobUp with status := Status.completed, progress := 100, itemId := respItemId { data := some { uid := some "item-1", pid := none } } } :: l₂ ∧
      (finishJob sOne 0 (Outcome.success { data := some { uid := some "item-1", pid := none } })).delivered
        = sOne.delivered
          ++ sOne.listeners.map (fun l => (l, l₁ ++ { jobUp with status := Status.processing, progress := 70, itemId := respItemId { data := some { uid := some "item-1", pid := none } } } :: l₂))
          ++ sOne.listeners.map (fun l => (l, l₁ ++ { jobUp with status := Status.completed, progress := 100, itemId := respItemId { data := some { uid := some "item-1", pid := none } } } :: l₂)) ∧
      (finishJob sOne 0 (Outcome.success { data := some { uid := some "item-1", pid := none } })).activeUploads = sOne.activeUploads - 1 ∧
      (finishJob sOne 0 (Outcome.success { data := some { uid := some "item-1", pid := none } })).inflight = sOne.inflight.erase 0 ∧
      (∀ d : RespData, ∀ m : String, ({ data := some { uid := some "item-1", pid := none } } : ApiResponse).data = some d → d.uid = some m → m ≠ "" →
        respItemId { data := some { uid := some "item-1", pid := none } } = some m) ∧
      (∀ d : RespData, ({ data := some { uid := some "item-1", pid := none } } : ApiResponse).data = some d → (d.uid = none ∨ d.uid = some "") →
        respItemId { data := some { uid := some "item-1", pid := none } } = d.pid) ∧
      (({ data := some { uid := some "item-1", pid := none } } : ApiResponse).data = none →
        respItemId { data := some { uid := some "item-1", pid := none } } = none) :=
  C8_success_semantics reachable_sOne (by decide) rfl
    { data := some { uid := some "item-1", pid := none } }

/-- C9: subscription semantics. `subscribe` synchronously delivers the current
queue snapshot to the new listener and registers it; `notify` — invoked after
every mutation — delivers the current snapshot to every registered listener;
the teardown returned by `subscribe` removes exactly the given listener,
leaving every other listener registered, and delivers nothing itself. -/
theorem C9_subscribe_semantics (s : QState) (l lother : Nat) :
    ((subscribe s).1.delivered = s.delivered ++ [((subscribe s).2, s.queue)]) ∧
    ((subscribe s).1.listeners = s.listeners ++ [(subscribe s).2]) ∧
    (∀ t : QState, (notify t).delivered = t.delivered ++ t.listeners.map (fun x => (x, t.queue))) ∧
    (∀ t : QState, ∀ x ∈ t.listeners, (x, t.queue) ∈ (notify t).delivered) ∧
    ((unsubscribe s l).listeners = s.listeners.filter (fun x => ! (x == l))) ∧
    (lother ≠ l → ((lother ∈ (unsubscribe s l).listeners) ↔ lother ∈ s.listeners)) ∧
    ((unsubscribe s l).delivered = s.delivered ∧ (unsubscribe s l).queue = s.queue) := by
  refine ⟨rfl, rfl, fun t => rfl, ?_, rfl, ?_, rfl, rfl⟩
  · intro t x hx
    exact List.mem_append.mpr (Or.inr (List.mem_map_of_mem (fun x => (x, t.queue)) hx))
  · intro hne
    unfold unsubscribe
    constructor
    · intro hmem
      exact List.mem_of_mem_filter hmem
    · intro hmem
      exact List.mem_filter.mpr ⟨hmem, by simpa using hne⟩

/-- C9 witness: subscribing to the pristine service delivers the empty
snapshot immediately, and unsubscribing listener 0 does not remove listener 1. -/
theorem C9_witness :
    ((subscribe init).1.delivered = init.delivered ++ [((subscribe init).2, init.queue)]) ∧
    ((1 ∈ (unsubscribe (subscribe (subscribe init).1).1 0).listeners)
      ↔ 1 ∈ (subscribe (subscribe init).1).1.listeners) :=
  ⟨(C9_subscribe_semantics init 0 1).1,
   (C9_subscribe_semantics (subscribe (subscribe init).1).1 0 1).2.2.2.2.2.1 (by decide)⟩

lemma delivered_ext_trans {a b c : List (Nat × List UploadJob)}
    (h1 : ∃ t, b = a ++ t) (h2 : ∃ t, c = b ++ t) : ∃ t, c = a ++ t := by
  obtain ⟨t1, rfl⟩ := h1
  obtain ⟨t2, rfl⟩ := h2
  exact ⟨t1 ++ t2, by rw [List.append_assoc]⟩

lemma updateJob_delivered_ext (s : QState) (id : Nat) (f : UploadJob → UploadJob) :
    ∃ t, (updateJob s id f).delivered = s.delivered ++ t := by
  unfold updateJob
  split
  · exact ⟨_, rfl⟩
  · exact ⟨[], (List.append_nil _).symm⟩

lemma processJobStart_delivered_ext (s : QState) (id : Nat) :
    ∃ t, (processJobStart s id).delivered = s.delivered ++ t := by
  have h : (processJobStart s id).delivered
      = (updateJob (updateJob s id fun j => { j with status := Status.uploading, progress := 10 })
          id fun j => { j with progress := 30 }).delivered := rfl
  rw [h]
  exact delivered_ext_trans (updateJob_delivered_ext _ _ _) (updateJob_delivered_ext _ _ _)

lemma spawnLoop_delivered_ext (n : Nat) (s : QState) :
    ∃ t, (spawnLoop n s).delivered = s.delivered ++ t := by
  induction n generalizing s with
  | zero => exact ⟨[], (List.append_nil _).symm⟩
  | succ n ih =>
      rw [spawnLoop]
      split
      · split
        case h_1 job hjob =>
          have h1 : ∃ t, (processJobStart { s with activeUploads := s.activeUploads + 1 }
              job.id).delivered = s.delivered ++ t :=
            processJobStart_delivered_ext _ _
          exact delivered_ext_trans h1 (ih _)
        case h_2 => exact ⟨[], (List.append_nil _).symm⟩
      · exact ⟨[], (List.append_nil _).symm⟩

lemma schedTick_delivered_ext (s : QState) :
    ∃ t, (schedTick s).delivered = s.delivered ++ t := by
  unfold schedTick
  split
  · exact spawnLoop_delivered_ext _ _
  · exact ⟨[], (List.append_nil _).symm⟩

lemma processQueue_delivered_ext (s : QState) :
    ∃ t, (processQueue s).delivered = s.delivered ++ t := by
  unfold processQueue
  split
  · exact ⟨[], (List.append_nil _).symm⟩
  · exact schedTick_delivered_ext _

lemma finishJob_delivered_ext (s : QState) (id : Nat) (o : Outcome) :
    ∃ t, (finishJob s id o).delivered = s.delivered ++ t := by
  unfold finishJob
  cases o with
  | success r =>
      show ∃ t, (resolveSuccess s id r).delivered = s.delivered ++ t
      exact delivered_ext_trans (updateJob_delivered_ext _ _ _) (updateJob_delivered_ext _ _ _)
  | failure e =>
      show ∃ t, (resolveFailure s id e).delivered = s.delivered ++ t
      exact updateJob_delivered_ext _ _ _

lemma removeJob_delivered_ext (s : QState) (id : Nat) :
    ∃ t, (removeJob s id).delivered = s.delivered ++ t := by
  unfold removeJob
  dsimp only
  split
  · exact ⟨_, rfl⟩
  · exact ⟨_, rfl⟩

/-- C10: every job list handed out is a value-level copy of the internal
queue. `getQueue` returns exactly the current queue's value, and no step of
the coordinator ever rewrites a previously delivered snapshot: the delivery
log only grows at the end, so an array handed to a listener is unaffected by
later internal mutations (in the embedding, lists are immutable values, and
the source passes `[...this.queue]`, a fresh array, to each listener). -/
theorem C10_snapshots_are_copies {s s' : QState} (hst : Step s s') :
    getQueue s = s.queue ∧ ∃ t, s'.delivered = s.delivered ++ t := by
  refine ⟨rfl, ?_⟩
  cases hst with
  | add files =>
      exact delivered_ext_trans (⟨_, rfl⟩ : ∃ t, (addFilesCore s files).delivered
        = s.delivered ++ t) (processQueue_delivered_ext _)
  | retry id =>
      exact delivered_ext_trans (updateJob_delivered_ext _ _ _) (processQueue_delivered_ext _)
  | remove id => exact removeJob_delivered_ext _ _
  | clear => exact ⟨_, rfl⟩
  | sub => exact ⟨_, rfl⟩
  | unsub l => exact ⟨[], (List.append_nil _).symm⟩
  | tick hp => exact schedTick_delivered_ext _
  | resolve id o hin => exact finishJob_delivered_ext _ _ _

/-- C10 witness: one concrete step — enqueuing a file into the pristine
service — extends the delivery log without touching its previous entries. -/
theorem C10_witness :
    getQueue init = init.queue ∧
    ∃ t, (addFiles init [filePng]).delivered = init.delivered ++ t :=
  C10_snapshots_are_copies (Step.add init [filePng])

end UploadQueue
